import Mathlib

/-!
Verification of the data-visualiser pipeline (src/script.js) against its
natural-language specification.

Strings are modelled as `List Char` (`Str`).  JavaScript numbers that the
pipeline manipulates are decimal values produced by `parseFloat` on decimal
numerals; they are modelled exactly as rationals (`ℚ`).  JavaScript objects
used as string-keyed dictionaries are modelled as association lists in
insertion order (`List (Str × α)`) with `setS`/`lookupS` mirroring property
assignment and property lookup; the prototype chain of JavaScript objects is
not modelled.  Fallible operations return `Option`.
-/

/-! ## Basic character and string helpers -/

abbrev Str := List Char

/-- Decimal digit test, `\d` in the script's regular expressions. -/
def isDigit (c : Char) : Bool := 48 ≤ c.toNat && c.toNat ≤ 57

/-- Whitespace as used by JavaScript `String.prototype.trim` and the regex
class `\s`: ASCII whitespace, NBSP and the BOM/ZWNBSP `﻿`.  (The full
JavaScript set also has further Unicode space separators; the inputs this
pipeline handles only use the characters below.) -/
def isJsWS (c : Char) : Bool :=
  c = ' ' || c = '\t' || c = '\n' || c = '\r' || c.toNat = 11 || c.toNat = 12 ||
  c.toNat = 160 || c.toNat = 0xFEFF

/-- Drop trailing JS whitespace (the right half of `trim`). -/
def rdropWS (s : Str) : Str := (s.reverse.dropWhile isJsWS).reverse

/-- Model of `String.prototype.trim`. -/
def trim (s : Str) : Str := rdropWS (s.dropWhile isJsWS)

/-- ASCII lower-casing, modelling `String.prototype.toLowerCase` on the
alphabet this data uses. -/
def toLowerChar (c : Char) : Char :=
  if 65 ≤ c.toNat && c.toNat ≤ 90 then Char.ofNat (c.toNat + 32) else c

/-- Model of `str.toLowerCase()`. -/
def lowerStr (s : Str) : Str := s.map toLowerChar

/-- Does `hay` start with `needle`? -/
def strStarts : Str → Str → Bool
  | [], _ => true
  | _ :: _, [] => false
  | n :: nt, h :: ht => (n = h) && strStarts nt ht

/-- Model of `hay.includes(needle)`. -/
def containsStr (needle : Str) : Str → Bool
  | [] => needle.isEmpty
  | c :: t => strStarts needle (c :: t) || containsStr needle t

/-- Numeric value of a digit string (`parseInt` on an all-digit string). -/
def natOfDigits (s : Str) : ℕ := s.foldl (fun a c => 10 * a + (c.toNat - 48)) 0

/-- Decimal digit character, for rendering numbers back to strings. -/
def digitChar (n : ℕ) : Char := Char.ofNat (48 + n)

/-- Decimal digits of a natural number (fuel-based model of `String(n)`;
the fuel `n + 1` always suffices since `n / 10` at least halves `n`). -/
def natDigitsAux : ℕ → ℕ → Str
  | 0, _ => []
  | fuel + 1, n => if n < 10 then [digitChar n] else natDigitsAux fuel (n / 10) ++ [digitChar (n % 10)]

/-- Model of `String(n)` for a natural number `n`. -/
def natDigits (n : ℕ) : Str := natDigitsAux (n + 1) n

/-! ## Numeral extraction (the regex `(\d+(\.\d+)?)` and friends)

A match of `(\d+(\.\d+)?)` at a position starting with a digit is the maximal
digit run there, followed by `.` plus a further maximal digit run when the
character after the integer digits is `.` and at least one digit follows it
(the optional group; backtracking never changes this because dropping or
shortening a group would make the next character a digit or a dot, never an
`h`/`H` or end-of-pattern improvement). -/

/-- Integer digits of a numeral match starting at the head of `s`. -/
def intDigits (s : Str) : Str := s.takeWhile isDigit

/-- Fractional digits of a numeral match starting at the head of `s`:
`some fs` when the integer digits are followed by `.` and at least one
digit. -/
def fracDigits (s : Str) : Option Str :=
  match s.dropWhile isDigit with
  | '.' :: r2 =>
    match r2.takeWhile isDigit with
    | [] => none
    | fs => some fs
  | _ => none

/-- The matched numeral substring at the head of `s`. -/
def numeralAt (s : Str) : Str :=
  match fracDigits s with
  | some fs => intDigits s ++ '.' :: fs
  | none => intDigits s

/-- The remainder of `s` after the numeral match at its head (the regex
engine resumes immediately after the matched text). -/
def afterNumeral (s : Str) : Str :=
  match s.dropWhile isDigit with
  | '.' :: r2 =>
    match r2.takeWhile isDigit with
    | [] => '.' :: r2
    | _ => r2.dropWhile isDigit
  | r => r

/-- Exact rational value of `parseFloat` on a well-formed decimal numeral
(digits, optionally a dot and more digits). -/
def ratOfNumeral (s : Str) : ℚ :=
  match fracDigits s with
  | some fs => (natOfDigits (intDigits s) : ℚ) + (natOfDigits fs : ℚ) / (10 : ℚ) ^ fs.length
  | none => (natOfDigits (intDigits s) : ℚ)

/-- First match of `/(\d+(\.\d+)?)/` anywhere in `s` (leftmost digit starts
it), as used by `parseMoney` (src/script.js:33) and by the bare-number
fallback of `parsePaidHours` (src/script.js:49-54, `numberMatches[0]`). -/
def firstNumeral : Str → Option Str
  | [] => none
  | c :: rest => if isDigit c then some (numeralAt (c :: rest)) else firstNumeral rest

/-! ## Field interpreter: parseMoney (src/script.js:31-35) -/

/-- A JavaScript cell value: a string, or anything that is not a string
(`typeof str !== 'string'`). -/
inductive Cell where
  | str (s : Str)
  | nonText

/-- Model of `parseMoney` (src/script.js:31-35): non-strings and
(case-insensitive) "n/a" give 0; otherwise the first decimal numeral found
in the text, parsed; 0 when there is none. -/
def parseMoney (c : Cell) : ℚ :=
  match c with
  | Cell.nonText => 0
  | Cell.str s =>
    if lowerStr s = "n/a".data then 0
    else
      match firstNumeral s with
      | some n => ratOfNumeral n
      | none => 0

/-! ## Field interpreter: parsePaidHours (src/script.js:37-60)

The loop `str.matchAll(/(\d+(?:\.\d+)?)\s*(?:H|hours?)/gi)` is modelled by a
left-to-right scan.  Since the alternation `H|hours?` is ordered and the
regex is case-insensitive, the branch `H` succeeds whenever `hours?` could,
so every match is: a numeral, optional whitespace, then one `h`/`H`, and the
engine resumes right after that letter; after a failed attempt at a position
the engine retries one character later. -/

/-- Captured numerals of all matches of the hours pattern, in order.  Fuel
`s.length` suffices: every recursive call consumes at least one character. -/
def hScanAux : ℕ → Str → List Str
  | 0, _ => []
  | _ + 1, [] => []
  | fuel + 1, c :: rest =>
    if isDigit c then
      match (afterNumeral (c :: rest)).dropWhile isJsWS with
      | d :: r2 =>
        if d = 'h' ∨ d = 'H' then numeralAt (c :: rest) :: hScanAux fuel r2
        else hScanAux fuel rest
      | [] => hScanAux fuel rest
    else hScanAux fuel rest

/-- All `match[1]` captures of the hours pattern in `s`. -/
def hMatches (s : Str) : List Str := hScanAux s.length s

/-- The accumulated `totalHours` after the `matchAll` loop
(src/script.js:41-44). -/
def hSum (s : Str) : ℚ := (hMatches s).foldl (fun t n => t + ratOfNumeral n) 0

/-- Value of the bare-number fallback `parseFloat(numberMatches[0])`
(src/script.js:49-56); 0 when the text has no numeral at all. -/
def bareFallback (s : Str) : ℚ :=
  match firstNumeral s with
  | some n => ratOfNumeral n
  | none => 0

/-- Final value of the mutable `totalHours` in `parsePaidHours`: the summed
hours-suffixed numbers, replaced by the first bare number when that sum is
zero (`if (totalHours === 0)`, src/script.js:47-57).  When no numeral exists
at all the fallback leaves 0 in place, which `bareFallback` also returns. -/
def hoursValue (s : Str) : ℚ := if hSum s = 0 then bareFallback s else hSum s

/-- Model of `parsePaidHours` (src/script.js:37-60): non-strings give null;
otherwise the computed hours value is returned only when strictly positive
(`return totalHours > 0 ? totalHours : null`). -/
def parsePaidHours (c : Cell) : Option ℚ :=
  match c with
  | Cell.nonText => none
  | Cell.str s => if 0 < hoursValue s then some (hoursValue s) else none

/-! ## String-keyed dictionaries (JavaScript object literals) -/

/-- Property lookup `m[k]` on an object modelled as an insertion-ordered
association list: `none` plays the role of `undefined`. -/
def lookupS {β : Type} : List (Str × β) → Str → Option β
  | [], _ => none
  | (k0, v) :: t, k => if k0 = k then some v else lookupS t k

/-- Property assignment `m[k] = v`: overwrite in place when the key exists,
append otherwise (JavaScript objects keep insertion order for string keys). -/
def setS {β : Type} : List (Str × β) → Str → β → List (Str × β)
  | [], k, v => [(k, v)]
  | (k0, v0) :: t, k, v => if k0 = k then (k, v) :: t else (k0, v0) :: setS t k v

/-- Sum of the values of a payout dictionary. -/
def payoutTotal (m : List (Str × ℚ)) : ℚ := (m.map Prod.snd).sum

/-! ## Header canonicalizer: toCanonical (src/script.js:99-119) -/

/-- Strip one leading byte-order mark, `key.replace(/^﻿/, '')`. -/
def stripBOM (s : Str) : Str :=
  match s with
  | [] => []
  | c :: t => if c = '﻿' then t else c :: t

/-- The BOM-stripped, trimmed header `k` of `toCanonical`. -/
def stripTrim (key : Str) : Str := trim (stripBOM key)

/-- Replace every run of characters outside `[a-z0-9 ]` by a single space,
`.replace(/[^a-z0-9 ]+/g, ' ')`.  Fuel-based: each step consumes at least
one character, so fuel `s.length` suffices. -/
def isKeepCh (c : Char) : Bool := (97 ≤ c.toNat && c.toNat ≤ 122) || isDigit c || c = ' '

def replaceBadAux : ℕ → Str → Str
  | 0, _ => []
  | _ + 1, [] => []
  | fuel + 1, c :: t =>
    if isKeepCh c then c :: replaceBadAux fuel t
    else ' ' :: replaceBadAux fuel (t.dropWhile (fun d => isKeepCh d = false))

def replaceBad (s : Str) : Str := replaceBadAux s.length s

/-- Collapse every whitespace run to a single space, `.replace(/\s+/g, ' ')`. -/
def collapseWSAux : ℕ → Str → Str
  | 0, _ => []
  | _ + 1, [] => []
  | fuel + 1, c :: t =>
    if isJsWS c then ' ' :: collapseWSAux fuel (t.dropWhile isJsWS)
    else c :: collapseWSAux fuel t

def collapseWS (s : Str) : Str := collapseWSAux s.length s

/-- The normalized key `norm` of `toCanonical` (src/script.js:102). -/
def normOf (k : Str) : Str := trim (collapseWS (replaceBad (lowerStr k)))

/-- The synonym table of `toCanonical` (src/script.js:103-117). -/
def synonymTable : List (Str × Str) :=
  [("date".data, "Date".data),
   ("booking name".data, "Booking Name".data),
   ("booking".data, "Booking Name".data),
   ("name".data, "Booking Name".data),
   ("employees".data, "Employees".data),
   ("employee s".data, "Employees".data),
   ("staff".data, "Employees".data),
   ("cost".data, "Cost".data),
   ("amount".data, "Cost".data),
   ("value".data, "Cost".data),
   ("hours paid out".data, "Hours Paid Out".data),
   ("hours".data, "Hours Paid Out".data),
   ("paid hours".data, "Hours Paid Out".data)]

/-- Model of `toCanonical` (src/script.js:99-119) on header strings:
`map[norm] || k`. -/
def toCanonical (key : Str) : Str :=
  match lookupS synonymTable (normOf (stripTrim key)) with
  | some v => v
  | none => stripTrim key

/-- Model of `mapHeadersOnRows` (src/script.js:121-127): canonicalize every
key of every row.  (Building the JavaScript object would merge duplicate
canonical keys, keeping the last value; rows are kept as association lists
here, no claim depends on the merge.) -/
def mapHeadersOnRows (rows : List (List (Str × Str))) : List (List (Str × Str)) :=
  rows.map (fun r => r.map (fun kv => (toCanonical kv.1, kv.2)))

/-! ## Ragged-row recovery (src/script.js:166-201) -/

/-- Keep arrays with at least one cell that is non-blank after trimming,
`res2.data.filter(r => ... r.some(c => String(c || '').trim().length > 0))`. -/
def nonBlankArrays (data : List (List Str)) : List (List Str) :=
  data.filter (fun r => r.any (fun c => (trim c).isEmpty = false))

/-- `arrays[0].map(h => String(h ?? '').trim())`, or `[]` when there is no
row (src/script.js:177). -/
def rawHeader (data : List (List Str)) : List Str :=
  match nonBlankArrays data with
  | [] => []
  | h :: _ => h.map trim

/-- `arrays.slice(1)` (src/script.js:178). -/
def bodyArrays (data : List (List Str)) : List (List Str) := (nonBlankArrays data).tail

/-- Dominant column count (src/script.js:181-184): frequency table of body
row lengths, keys enumerated in ascending numeric order (JavaScript
integer-like object keys), stably sorted by frequency descending, first
entry taken; header length when there is no body row.  Equivalently: the
least length attaining the maximal frequency. -/
def dominantLen (body : List (List Str)) (hlen : ℕ) : ℕ :=
  match body.map List.length with
  | [] => hlen
  | lens =>
    (((List.range (lens.foldr max 0 + 1)).filter (fun n => lens.contains n)).foldl
      (fun best n => if lens.count best < lens.count n then n else best) 0)

/-- Synthetic header name `'Col' + index` (src/script.js:189). -/
def colName (i : ℕ) : Str := "Col".data ++ natDigits i

/-- The `while (xs.length < n) xs.push(fill(xs.length + 1))` loops of
src/script.js:189 and 193, fuel-based; fuel `n` suffices because each
iteration grows the list towards `n`. -/
def padLoop (fill : ℕ → Str) : ℕ → List Str → ℕ → List Str
  | 0, h, _ => h
  | fuel + 1, h, n =>
    if h.length < n then padLoop fill fuel (h ++ [fill (h.length + 1)]) n else h

/-- Header adjustment (src/script.js:187-189): trim to the dominant length
when longer, pad with `Col<i>` names when shorter. -/
def adjustHeader (h : List Str) (n : ℕ) : List Str :=
  padLoop colName n (if n < h.length then h.take n else h) n

/-- Body cell padding (src/script.js:192-193): truncate to the dominant
length, then pad with empty strings. -/
def padCells (r : List Str) (n : ℕ) : List Str := padLoop (fun _ => []) n (r.take n) n

/-- The adjusted header actually used by the rebuild. -/
def recHeader (data : List (List Str)) : List Str :=
  adjustHeader (rawHeader data) (dominantLen (bodyArrays data) (rawHeader data).length)

/-- Model of the array-based recovery (src/script.js:174-197): every body
row is truncated/padded to the dominant length and zipped positionally
against the adjusted header (`headerRow.forEach((h, i) => obj[h] = rowArr[i])`;
the JavaScript object would merge duplicate header names, association pairs
are kept here). -/
def recoverRows (data : List (List Str)) : List (List (Str × Str)) :=
  (bodyArrays data).map (fun r =>
    (recHeader data).zip (padCells r (dominantLen (bodyArrays data) (rawHeader data).length)))

/-! ## Re-parse decision and outcome (src/script.js:160-164, 200-253) -/

/-- A PapaParse error object, with its `type` and `code` fields. -/
structure PapaError where
  type : Str
  code : Str

/-- Model of `needsReparse` (src/script.js:160-164): at least one error with
`type === 'FieldMismatch'` and `code === 'TooFewFields'`; `none` models a
missing/ill-typed `results.errors`. -/
def needsReparse (results : Option (List PapaError)) : Bool :=
  match results with
  | none => false
  | some errors =>
    1 ≤ (errors.filter
      (fun e => e.type == "FieldMismatch".data && e.code == "TooFewFields".data)).length

/-- The row set used downstream: the recovery rows replace the header-based
rows exactly when `needsReparse` fires (src/script.js:166-201). -/
def afterRecovery (rows : List (List (Str × Str))) (results : Option (List PapaError))
    (arrays : List (List Str)) : List (List (Str × Str)) :=
  if needsReparse results then recoverRows arrays else rows

/-- Outcome of the load after canonicalization (src/script.js:203, 250-253):
`none` (the `return null` failure path) exactly when zero rows remain. -/
def loadOutcome (rows : List (List (Str × Str))) (results : Option (List PapaError))
    (arrays : List (List Str)) : Option (List (List (Str × Str))) :=
  match mapHeadersOnRows (afterRecovery rows results arrays) with
  | [] => none
  | r :: t => some (r :: t)

/-! ## Record processor: processData (src/script.js:278-364) -/

/-- A parsed calendar date as fed to `Date.UTC(year, month - 1, day)`:
year, 1-based month, day, all as parsed from the text.  (The `Date.UTC`
renormalization of out-of-range fields is not modelled; no claim depends on
it.) -/
structure DateYMD where
  y : ℕ
  m : ℕ
  d : ℕ
deriving DecidableEq

/-- Take exactly `n` digits, returning them and the rest (`\d{n}`). -/
def digitsN : ℕ → Str → Option (Str × Str)
  | 0, s => some ([], s)
  | _ + 1, [] => none
  | n + 1, c :: t =>
    if isDigit c then
      match digitsN n t with
      | some (ds, r) => some (c :: ds, r)
      | none => none
    else none

/-- The separator class `[\/\-]`. -/
def isDateSep (c : Char) : Bool := c = '/' || c = '-'

/-- One attempt of `(\d{1,2})[\/\-](\d{1,2})[\/\-](\d{2,4})` at the head of
`s` with fixed repetition counts for day, month and year. -/
def tryDMY (dl ml yl : ℕ) (s : Str) : Option (Str × Str × Str) :=
  match digitsN dl s with
  | none => none
  | some (d, r1) =>
    match r1 with
    | [] => none
    | c1 :: r2 =>
      if isDateSep c1 then
        match digitsN ml r2 with
        | none => none
        | some (m, r3) =>
          match r3 with
          | [] => none
          | c2 :: r4 =>
            if isDateSep c2 then
              match digitsN yl r4 with
              | some (yr, _) => some (d, m, yr)
              | none => none
            else none
      else none

/-- First of a list of attempts to succeed. -/
def firstSome {α : Type} : List (Option α) → Option α
  | [] => none
  | some a :: _ => some a
  | none :: t => firstSome t

/-- Match of the date pattern at one position, trying repetition counts in
the greedy backtracking order of the regex engine (day 2 then 1; month 2
then 1; year 4, 3, then 2). -/
def dmyAt (s : Str) : Option (Str × Str × Str) :=
  firstSome
    [tryDMY 2 2 4 s, tryDMY 2 2 3 s, tryDMY 2 2 2 s,
     tryDMY 2 1 4 s, tryDMY 2 1 3 s, tryDMY 2 1 2 s,
     tryDMY 1 2 4 s, tryDMY 1 2 3 s, tryDMY 1 2 2 s,
     tryDMY 1 1 4 s, tryDMY 1 1 3 s, tryDMY 1 1 2 s]

/-- Leftmost match of `(\d{1,2})[\/\-](\d{1,2})[\/\-](\d{2,4})` in `s`
(position loop of `String.prototype.match`), fuel-based on `s.length`. -/
def dmyScan : ℕ → Str → Option (Str × Str × Str)
  | 0, _ => none
  | _ + 1, [] => none
  | fuel + 1, c :: t =>
    match dmyAt (c :: t) with
    | some r => some r
    | none => dmyScan fuel t

/-- Model of `parseDateSmart` (src/script.js:281-294).  The `new Date(s)`
free-form fallback is host-defined and is abstracted as the parameter `fb`. -/
def parseDateSmart (fb : Str → Option DateYMD) (value : Str) : Option DateYMD :=
  match trim value with
  | [] => none
  | c :: t =>
    match dmyScan (c :: t).length (c :: t) with
    | some (d, m, yr) =>
      some ⟨(if yr.length = 2 then
               (if 70 ≤ natOfDigits yr then 1900 + natOfDigits yr else 2000 + natOfDigits yr)
             else natOfDigits yr),
            natOfDigits m, natOfDigits d⟩
    | none => fb (c :: t)

/-- `String(r).padStart(2, '0')` for the 1- or 2-digit month/day strings of
`dateKey` (src/script.js:316-317). -/
def pad2 (s : Str) : Str := if s.length = 1 then '0' :: s else s

/-- The `dateKey` string `year-month-day` (src/script.js:349). -/
def dateKeyOf (dt : DateYMD) : Str :=
  natDigits dt.y ++ '-' :: (pad2 (natDigits dt.m) ++ '-' :: pad2 (natDigits dt.d))

/-- `employeesRaw.split(',')` (src/script.js:305), accumulator-based. -/
def splitCommaAux (cur : Str) : Str → List Str
  | [] => [cur.reverse]
  | c :: t => if c = ',' then cur.reverse :: splitCommaAux [] t else splitCommaAux (c :: cur) t

def splitComma (s : Str) : List Str := splitCommaAux [] s

/-- The employee list of a row (src/script.js:305): split on commas, trim
each name, drop empties; `[]` for an empty raw string. -/
def splitEmployees (employeesRaw : Str) : List Str :=
  if employeesRaw = [] then []
  else ((splitComma employeesRaw).map trim).filter (fun e => e ≠ [])

/-- The designated subcontractor name (src/script.js:323). -/
def uppalName : Str := "Uppal/Dhruv".data

/-- The fixed-rate names (src/script.js:326). -/
def fixedRateEmployees : List Str := ["Randew".data, "Nikitha".data, "Oneli".data]

/-- `subcontractorPayout` (src/script.js:323). -/
def subPayout (employees : List Str) (v : ℚ) : ℚ :=
  if uppalName ∈ employees then v * (1 / 2) else 0

/-- The fixed-rate assignments (src/script.js:327-336): the single present
fixed-rate occurrence gets half the value, two or more occurrences each get
a quarter.  The argument is `presentFixedRateEmployees`, the occurrence list
`employees.filter(emp => fixedRateEmployees.includes(emp))`. -/
def payoutsInit (pres : List Str) (v : ℚ) : List (Str × ℚ) :=
  match pres with
  | [] => []
  | [e] => setS [] e (v * (1 / 2))
  | _ => pres.foldl (fun m e => setS m e (v * (1 / 4))) []

/-- JavaScript falsiness of `employeePayouts[employee]`: `undefined` or the
number 0. -/
def payoutFalsy : Option ℚ → Bool
  | none => true
  | some q => q == 0

/-- One iteration of the `employees.forEach` loop (src/script.js:339-345):
the subcontractor gets `subcontractorPayout`; any other non-fixed-rate
employee without a (truthy) payout yet gets the full value. -/
def payoutStep (v sub : ℚ) (m : List (Str × ℚ)) (e : Str) : List (Str × ℚ) :=
  if e = uppalName then setS m e sub
  else if fixedRateEmployees.contains e = false && payoutFalsy (lookupS m e) then setS m e v
  else m

/-- The complete `employeePayouts` object for one job (src/script.js:323-345). -/
def computePayouts (employees : List Str) (v : ℚ) : List (Str × ℚ) :=
  (employees.foldl (payoutStep v (subPayout employees v))
    (payoutsInit (employees.filter (fun e => fixedRateEmployees.contains e)) v))

/-- A processed job record (src/script.js:347-360). -/
structure Job where
  date : DateYMD
  dateKey : Str
  bookingName : Str
  employees : List Str
  value : ℚ
  paidHours : Option ℚ
  isCancelled : Bool
  isTouchUp : Bool
  hasGST : Bool
  isBillable : Bool
  subcontractorPayout : ℚ
  employeePayouts : List (Str × ℚ)
deriving DecidableEq

/-- `String(row[k] ?? '')` for a field of a row. -/
def getField (row : List (Str × Str)) (k : Str) : Str := (lookupS row k).getD []

/-- Model of the per-row transform in `processData` (src/script.js:296-361):
`none` when the date cannot be parsed (the row is dropped), otherwise the
ProcessedJob. -/
def processRow (fb : Str → Option DateYMD) (row : List (Str × Str)) : Option Job :=
  match parseDateSmart fb (getField row ("Date".data)) with
  | none => none
  | some date =>
    some { date := date
           dateKey := dateKeyOf date
           bookingName := trim (getField row ("Booking Name".data))
           employees := splitEmployees (trim (getField row ("Employees".data)))
           value := parseMoney (Cell.str (getField row ("Cost".data)))
           paidHours := parsePaidHours (Cell.str (getField row ("Hours Paid Out".data)))
           isCancelled := containsStr ("cancelled".data) (lowerStr (trim (getField row ("Booking Name".data))))
           isTouchUp := containsStr ("touch up".data) (lowerStr (trim (getField row ("Booking Name".data))))
           hasGST := containsStr ("+ gst".data) (lowerStr (getField row ("Cost".data)))
           isBillable := decide (0 < parseMoney (Cell.str (getField row ("Cost".data)))) &&
             !containsStr ("cancelled".data) (lowerStr (trim (getField row ("Booking Name".data)))) &&
             !containsStr ("touch up".data) (lowerStr (trim (getField row ("Booking Name".data))))
           subcontractorPayout := subPayout
             (splitEmployees (trim (getField row ("Employees".data))))
             (parseMoney (Cell.str (getField row ("Cost".data))))
           employeePayouts := computePayouts
             (splitEmployees (trim (getField row ("Employees".data))))
             (parseMoney (Cell.str (getField row ("Cost".data)))) }

/-- The processed row sequence of `processData` (src/script.js:296-361,
`rows.map(...).filter(Boolean)`).  The `lastUpdated` maximum is not needed
by any claim and is omitted. -/
def processData (fb : Str → Option DateYMD) (rows : List (List (Str × Str))) : List Job :=
  rows.filterMap (processRow fb)

/-! ## Hourly performance: renderBestHourly (src/script.js:497-535) -/

/-- The denylist of non-hourly employees (src/script.js:499). -/
def EXCLUDE_HOURLY : List Str := ["nikitha".data, "oneli".data, "randew".data, "uppal".data]

/-- `normalize` in `renderBestHourly` (src/script.js:500): trim then
lower-case. -/
def normalizeName (s : Str) : Str := lowerStr (trim s)

/-- Per-employee accumulator record of `renderBestHourly`. -/
structure HStat where
  jobsWithPaidHours : ℕ
  paidHours : ℚ
  revenue : ℚ
deriving DecidableEq

/-- One iteration of the inner `row.employees.forEach` loop
(src/script.js:508-524): denylisted names are skipped; otherwise the bucket
under the trimmed name is created if absent and updated. -/
def hourlyEmpStep (row : Job) (m : List (Str × HStat)) (emp : Str) : List (Str × HStat) :=
  if EXCLUDE_HOURLY.contains (normalizeName emp) then m
  else
    setS m (trim emp)
      (let s0 := (lookupS m (trim emp)).getD ⟨0, 0, 0⟩
       let s1 := if row.paidHours.isSome then
           { s0 with jobsWithPaidHours := s0.jobsWithPaidHours + 1,
                     paidHours := s0.paidHours + row.paidHours.getD 0 }
         else s0
       if row.isBillable then { s1 with revenue := s1.revenue + row.value } else s1)

/-- One iteration of the outer `rows.forEach` loop (src/script.js:502-525);
rows with no employees are skipped. -/
def hourlyRowStep (m : List (Str × HStat)) (row : Job) : List (Str × HStat) :=
  if row.employees.isEmpty then m else row.employees.foldl (hourlyEmpStep row) m

/-- The `employeeData` dictionary after both loops. -/
def hourlyAccum (rows : List Job) : List (Str × HStat) := rows.foldl hourlyRowStep []

/-- An entry of the rendered hourly-performance list. -/
structure HEntry where
  employee : Str
  jobsWithPaidHours : ℕ
  paidHours : ℚ
  revenue : ℚ
  perHour : ℚ
deriving DecidableEq

/-- `{ employee, ...data, perHour }` (src/script.js:529-533). -/
def mkHEntry (kv : Str × HStat) : HEntry :=
  ⟨kv.1, kv.2.jobsWithPaidHours, kv.2.paidHours, kv.2.revenue,
   if 0 < kv.2.paidHours then kv.2.revenue / kv.2.paidHours else 0⟩

/-- The descending-by-perHour order used by
`.sort((a, b) => b.perHour - a.perHour)`. -/
def hEntryGE (a b : HEntry) : Prop := b.perHour ≤ a.perHour

instance : DecidableRel hEntryGE :=
  fun a b => inferInstanceAs (Decidable (b.perHour ≤ a.perHour))

instance : IsTotal HEntry hEntryGE := ⟨fun a b => le_total b.perHour a.perHour⟩

instance : IsTrans HEntry hEntryGE := ⟨fun _ _ _ h1 h2 => le_trans h2 h1⟩

/-- Model of the `hourlyPerformance` list (src/script.js:527-535): filter to
at least 5 jobs with a present hours value, build entries, sort by per-hour
ratio descending (a stable sort, like the JavaScript engine's), take 10. -/
def renderBestHourly (rows : List Job) : List HEntry :=
  (List.insertionSort hEntryGE
    (((hourlyAccum rows).filter (fun kv => 5 ≤ kv.2.jobsWithPaidHours)).map mkHEntry)).take 10

/-! ### Order-free characterization of the accumulated sums

`occInRow k row` counts the occurrences of trimmed name `k` on a row's
employee list; the spec-side sums below characterize the fold. -/

def occInRow (k : Str) (row : Job) : ℕ := row.employees.countP (fun emp => trim emp == k)

/-- Occurrence count restricted to non-denylisted occurrences (what the fold
actually accumulates). -/
def occExInRow (k : Str) (row : Job) : ℕ :=
  row.employees.countP
    (fun emp => trim emp == k && !(EXCLUDE_HOURLY.contains (normalizeName emp)))

def specJobsWithHours (rows : List Job) (k : Str) : ℕ :=
  (rows.map (fun r => if r.paidHours.isSome then occInRow k r else 0)).sum

def specPaidHours (rows : List Job) (k : Str) : ℚ :=
  (rows.map (fun r =>
    match r.paidHours with
    | some h => (occInRow k r : ℚ) * h
    | none => 0)).sum

def specRevenue (rows : List Job) (k : Str) : ℚ :=
  (rows.map (fun r => if r.isBillable then (occInRow k r : ℚ) * r.value else 0)).sum

/-- Componentwise sum of accumulator records. -/
def addStat (a b : HStat) : HStat :=
  ⟨a.jobsWithPaidHours + b.jobsWithPaidHours, a.paidHours + b.paidHours, a.revenue + b.revenue⟩

/-- `c` copies of one occurrence's contribution. -/
def scaleStat (c : ℕ) (u : HStat) : HStat :=
  ⟨c * u.jobsWithPaidHours, (c : ℚ) * u.paidHours, (c : ℚ) * u.revenue⟩

/-- The contribution of a single non-denylisted occurrence on `row`. -/
def rowUnit (row : Job) : HStat :=
  ⟨if row.paidHours.isSome then 1 else 0, row.paidHours.getD 0,
   if row.isBillable then row.value else 0⟩

/-- The accumulator value under key `k`, defaulting to the zero record. -/
def getStat (m : List (Str × HStat)) (k : Str) : HStat := (lookupS m k).getD ⟨0, 0, 0⟩

/-! ## Concrete data used by the worked examples -/

/-- A raw row exercising the subcontractor-plus-regular payout rule. -/
def demoRow : List (Str × Str) :=
  [("Date".data, "1/2/2023".data),
   ("Employees".data, "Uppal/Dhruv, Alice".data),
   ("Cost".data, "100".data)]

/-- The job `processData` produces from `demoRow`, with the numeric fields
kept in their as-computed form (their values are 100, 50 and
[(Uppal/Dhruv, 50), (Alice, 100)]; see `payout_keys_member`). -/
def demoJob : Job :=
  { date := ⟨2023, 2, 1⟩
    dateKey := "2023-02-01".data
    bookingName := []
    employees := [uppalName, "Alice".data]
    value := parseMoney (Cell.str ("100".data))
    paidHours := none
    isCancelled := false
    isTouchUp := false
    hasGST := false
    isBillable := true
    subcontractorPayout := subPayout [uppalName, "Alice".data] (parseMoney (Cell.str ("100".data)))
    employeePayouts :=
      computePayouts [uppalName, "Alice".data] (parseMoney (Cell.str ("100".data))) }

/-- A date fallback that always fails, for the worked examples. -/
def noFb : Str → Option DateYMD := fun _ => none

/-- A billable job with one hourly employee, for the hourly-performance
examples. -/
def aliceJob : Job :=
  { date := ⟨2023, 1, 1⟩
    dateKey := []
    bookingName := []
    employees := ["Alice".data]
    value := 100
    paidHours := some 2
    isCancelled := false
    isTouchUp := false
    hasGST := false
    isBillable := true
    subcontractorPayout := 0
    employeePayouts := [("Alice".data, 100)] }

/-- Five copies of `aliceJob`: enough jobs to pass the ≥ 5 threshold. -/
def hourlyRows : List Job := [aliceJob, aliceJob, aliceJob, aliceJob, aliceJob]

/-- The single hourly-performance entry computed from `hourlyRows`. -/
def aliceEntry : HEntry := ⟨"Alice".data, 5, 10, 500, 50⟩

/-- Recovery example: a 6-column header over body rows of lengths
[5, 5, 5, 6, 5]. -/
def recData : List (List Str) :=
  [["A".data, "B".data, "C".data, "D".data, "E".data, "Notes".data],
   ["a1".data, "b1".data, "c1".data, "d1".data, "e1".data],
   ["a2".data, "b2".data, "c2".data, "d2".data, "e2".data],
   ["a3".data, "b3".data, "c3".data, "d3".data, "e3".data],
   ["a4".data, "b4".data, "c4".data, "d4".data, "e4".data, "n4".data],
   ["a5".data, "b5".data, "c5".data, "d5".data, "e5".data]]

/-- A mismatch error with code `TooManyFields`. -/
def tooManyErr : PapaError := ⟨"FieldMismatch".data, "TooManyFields".data⟩

/-- A mismatch error with code `TooFewFields`. -/
def tooFewErr : PapaError := ⟨"FieldMismatch".data, "TooFewFields".data⟩

/-! # Lemmas and theorems -/

/-! ## Dictionary lemmas -/

theorem lookupS_setS_self {β : Type} (m : List (Str × β)) (k : Str) (v : β) :
    lookupS (setS m k v) k = some v := by
  induction m with
  | nil => simp [setS, lookupS]
  | cons kv t ih =>
    by_cases h : kv.1 = k
    · simp [setS, h, lookupS]
    · simpa [setS, h, lookupS] using ih

theorem lookupS_setS_ne {β : Type} (m : List (Str × β)) (k k' : Str) (v : β) (h : k' ≠ k) :
    lookupS (setS m k v) k' = lookupS m k' := by
  induction m with
  | nil =>
    simp only [setS, lookupS]
    rw [if_neg (fun e => h e.symm)]
  | cons kv t ih =>
    obtain ⟨k0, v0⟩ := kv
    by_cases hk : k0 = k
    · subst hk
      simp only [setS, if_pos rfl, lookupS]
      rw [if_neg (fun e => h e.symm), if_neg (fun e => h e.symm)]
    · simp only [setS, if_neg hk, lookupS]
      by_cases hk' : k0 = k' <;> simp [hk', ih]

theorem mem_setS {β : Type} {m : List (Str × β)} {k : Str} {v : β} :
    ∀ x ∈ setS m k v, x.1 = k ∨ x ∈ m := by
  induction m with
  | nil =>
    intro x hx
    simp only [setS, List.mem_singleton] at hx
    exact Or.inl (hx ▸ rfl)
  | cons kv t ih =>
    intro x hx
    obtain ⟨k0, v0⟩ := kv
    by_cases hk : k0 = k
    · subst hk
      simp only [setS, eq_self_iff_true, if_true, List.mem_cons] at hx
      rcases hx with hx | hx
      · exact Or.inl (hx ▸ rfl)
      · exact Or.inr (List.mem_cons_of_mem _ hx)
    · simp only [setS, if_neg hk, List.mem_cons] at hx
      rcases hx with hx | hx
      · exact Or.inr (hx ▸ List.mem_cons_self _ _)
      · rcases ih x hx with h1 | h1
        · exact Or.inl h1
        · exact Or.inr (List.mem_cons_of_mem _ h1)

theorem lookupS_eq_some_mem {β : Type} {m : List (Str × β)} {k : Str} {v : β}
    (h : lookupS m k = some v) : (k, v) ∈ m := by
  induction m with
  | nil => simp [lookupS] at h
  | cons kv t ih =>
    obtain ⟨k0, v0⟩ := kv
    by_cases hk : k0 = k
    · subst hk
      simp only [lookupS, eq_self_iff_true, if_true, Option.some.injEq] at h
      subst h
      exact List.mem_cons_self _ _
    · simp only [lookupS, if_neg hk] at h
      exact List.mem_cons_of_mem _ (ih h)

theorem keys_setS {β : Type} (m : List (Str × β)) (k : Str) (v : β) :
    ∀ x ∈ (setS m k v).map Prod.fst, x = k ∨ x ∈ m.map Prod.fst := by
  intro x hx
  rcases List.mem_map.mp hx with ⟨p, hp, he⟩
  subst he
  rcases mem_setS p hp with h1 | h1
  · exact Or.inl h1
  · exact Or.inr (List.mem_map_of_mem _ h1)

theorem keys_nodup_setS {β : Type} {m : List (Str × β)} (k : Str) (v : β)
    (h : (m.map Prod.fst).Nodup) : ((setS m k v).map Prod.fst).Nodup := by
  induction m with
  | nil => simp [setS]
  | cons kv t ih =>
    obtain ⟨k0, v0⟩ := kv
    simp only [List.map_cons, List.nodup_cons] at h
    by_cases hk : k0 = k
    · subst hk
      simp only [setS, eq_self_iff_true, if_true, List.map_cons, List.nodup_cons]
      exact ⟨h.1, h.2⟩
    · have hni := ih h.2
      simp only [setS, if_neg hk, List.map_cons, List.nodup_cons]
      refine ⟨fun hc => ?_, hni⟩
      rcases keys_setS t k v _ hc with h1 | h1
      · exact hk h1
      · exact h.1 h1

theorem mem_lookupS {β : Type} {m : List (Str × β)} (hnd : (m.map Prod.fst).Nodup)
    {k : Str} {v : β} (h : (k, v) ∈ m) : lookupS m k = some v := by
  induction m with
  | nil => simp at h
  | cons kv t ih =>
    obtain ⟨k0, v0⟩ := kv
    simp only [List.map_cons, List.nodup_cons] at hnd
    rcases List.mem_cons.mp h with h1 | h1
    · rw [show k0 = k from congrArg Prod.fst h1.symm, show v0 = v from congrArg Prod.snd h1.symm]
      simp [lookupS]
    · have hk : k0 ≠ k := by
        intro he
        subst he
        exact hnd.1 (List.mem_map_of_mem _ h1)
      simp [lookupS, hk, ih hnd.2 h1]

/-! ## Trim lemmas -/

theorem dropWhile_idem (p : Char → Bool) (l : Str) :
    (l.dropWhile p).dropWhile p = l.dropWhile p := by
  induction l with
  | nil => simp
  | cons c t ih =>
    by_cases h : p c <;> simp [List.dropWhile_cons, h, ih]

theorem head_dropWhile (p : Char → Bool) (l : Str) {c : Char} {t : Str}
    (h : l.dropWhile p = c :: t) : p c = false := by
  induction l with
  | nil => simp at h
  | cons a l' ih =>
    by_cases ha : p a
    · exact ih (by simpa [List.dropWhile_cons, ha] using h)
    · simp only [List.dropWhile_cons, ha, if_neg] at h
      simp_all

theorem dropWhile_head_false (p : Char → Bool) (c : Char) (t : Str) (h : p c = false) :
    (c :: t).dropWhile p = c :: t := by
  simp [List.dropWhile_cons, h]

theorem exists_prefix_dropWhile (p : Char → Bool) (l : Str) :
    ∃ t, l = t ++ l.dropWhile p := by
  induction l with
  | nil => exact ⟨[], rfl⟩
  | cons c t ih =>
    by_cases h : p c
    · rcases ih with ⟨u, hu⟩
      exact ⟨c :: u, by simpa [List.dropWhile_cons, h] using congrArg (c :: ·) hu⟩
    · exact ⟨[], by simp [List.dropWhile_cons, h]⟩

theorem rdropWS_prefix (x : Str) : ∃ t, x = rdropWS x ++ t := by
  rcases exists_prefix_dropWhile isJsWS x.reverse with ⟨u, hu⟩
  refine ⟨u.reverse, ?_⟩
  have := congrArg List.reverse hu
  simpa [rdropWS] using this

theorem dropWhile_rdropWS (x : Str) (hx : x.dropWhile isJsWS = x) :
    (rdropWS x).dropWhile isJsWS = rdropWS x := by
  rcases rdropWS_prefix x with ⟨t, ht⟩
  cases h : rdropWS x with
  | nil => simp
  | cons c cs =>
    apply dropWhile_head_false
    have hx' : x = c :: (cs ++ t) := by rw [ht, h]; simp
    have : x.dropWhile isJsWS = c :: (cs ++ t) := by rw [hx, hx']
    exact head_dropWhile isJsWS x this

theorem rdropWS_idem (x : Str) : rdropWS (rdropWS x) = rdropWS x := by
  simp only [rdropWS, List.reverse_reverse]
  rw [dropWhile_idem]

theorem trim_idem (s : Str) : trim (trim s) = trim s := by
  have hx : (s.dropWhile isJsWS).dropWhile isJsWS = s.dropWhile isJsWS := dropWhile_idem _ _
  simp only [trim]
  rw [dropWhile_rdropWS _ hx, rdropWS_idem]

theorem trim_head_not_ws (s : Str) {c : Char} {t : Str} (h : trim s = c :: t) :
    isJsWS c = false := by
  simp only [trim] at h
  rcases rdropWS_prefix (s.dropWhile isJsWS) with ⟨u, hu⟩
  rw [h] at hu
  have : (s.dropWhile isJsWS).dropWhile isJsWS = c :: (t ++ u) := by
    rw [dropWhile_idem, hu]; simp
  exact head_dropWhile isJsWS _ this

theorem stripBOM_trim (s : Str) : stripBOM (trim s) = trim s := by
  cases h : trim s with
  | nil => simp [stripBOM]
  | cons c t =>
    have hc := trim_head_not_ws s h
    have : ¬ c = '﻿' := by
      intro he
      rw [he] at hc
      simp [isJsWS] at hc
    simp [stripBOM, this]

theorem stripTrim_idem (k : Str) : stripTrim (stripTrim k) = stripTrim k := by
  simp only [stripTrim, stripBOM_trim, trim_idem]

/-! ## Canonicalizer lemmas -/

theorem synonym_values {n v : Str} (h : lookupS synonymTable n = some v) :
    v = "Date".data ∨ v = "Booking Name".data ∨ v = "Employees".data ∨
    v = "Cost".data ∨ v = "Hours Paid Out".data := by
  have hm := lookupS_eq_some_mem h
  simp only [synonymTable, List.mem_cons, List.not_mem_nil, or_false, Prod.mk.injEq] at hm
  rcases hm with ⟨_, h2⟩ | ⟨_, h2⟩ | ⟨_, h2⟩ | ⟨_, h2⟩ | ⟨_, h2⟩ | ⟨_, h2⟩ | ⟨_, h2⟩ |
    ⟨_, h2⟩ | ⟨_, h2⟩ | ⟨_, h2⟩ | ⟨_, h2⟩ | ⟨_, h2⟩ | ⟨_, h2⟩ <;> subst h2 <;> decide

theorem toCanonical_fixes_values {v : Str}
    (h : v = "Date".data ∨ v = "Booking Name".data ∨ v = "Employees".data ∨
      v = "Cost".data ∨ v = "Hours Paid Out".data) : toCanonical v = v := by
  rcases h with h | h | h | h | h <;> subst h <;> decide

theorem toCanonical_idem (k : Str) : toCanonical (toCanonical k) = toCanonical k := by
  cases h : lookupS synonymTable (normOf (stripTrim k)) with
  | some v =>
    have h1 : toCanonical k = v := by rw [toCanonical, h]
    rw [h1]
    exact toCanonical_fixes_values (synonym_values h)
  | none =>
    have h1 : toCanonical k = stripTrim k := by rw [toCanonical, h]
    rw [h1, toCanonical, stripTrim_idem, h]

/-- C7: header canonicalization is idempotent; all listed synonyms of a
canonical field map to the same canonical key regardless of case and
punctuation (worked instances for the "Employees" synonyms); a header
matching no synonym is returned as its BOM-stripped, trimmed original. -/
theorem toCanonical_idempotent :
    (∀ h, toCanonical (toCanonical h) = toCanonical h) ∧
    toCanonical ("Staff".data) = "Employees".data ∧
    toCanonical ("staff".data) = "Employees".data ∧
    toCanonical ("STAFF".data) = "Employees".data ∧
    toCanonical ("  Staff  ".data) = "Employees".data ∧
    toCanonical ("Employee(s)".data) = "Employees".data ∧
    toCanonical ("EMPLOYEE(S)".data) = "Employees".data ∧
    toCanonical ("Employees".data) = "Employees".data ∧
    toCanonical ('﻿' :: "Staff".data) = "Employees".data ∧
    (∀ h, lookupS synonymTable (normOf (stripTrim h)) = none → toCanonical h = stripTrim h) := by
  refine ⟨toCanonical_idem, by decide, by decide, by decide, by decide, by decide, by decide,
    by decide, by decide, ?_⟩
  intro h hl
  rw [toCanonical, hl]

/-- C7 witness: a header matching no synonym ("Notes") comes back as its
trimmed original. -/
theorem toCanonical_idempotent_witness : toCanonical ("Notes".data) = stripTrim ("Notes".data) :=
  toCanonical_idempotent.2.2.2.2.2.2.2.2.2 ("Notes".data) (by decide)

/-! ## Numeral lemmas -/

theorem ratOfNumeral_int_eval (s : Str) (n : ℕ) (h1 : fracDigits s = none)
    (h2 : natOfDigits (intDigits s) = n) : ratOfNumeral s = (n : ℚ) := by
  rw [ratOfNumeral, h1, h2]

theorem ratOfNumeral_frac_eval (s fs : Str) (a b k : ℕ) (h1 : fracDigits s = some fs)
    (h2 : natOfDigits (intDigits s) = a) (h3 : natOfDigits fs = b) (h4 : fs.length = k) :
    ratOfNumeral s = (a : ℚ) + (b : ℚ) / (10 : ℚ) ^ k := by
  have h : ratOfNumeral s =
      (natOfDigits (intDigits s) : ℚ) + (natOfDigits fs : ℚ) / (10 : ℚ) ^ fs.length := by
    rw [ratOfNumeral, h1]
  rw [h, h2, h3, h4]

theorem ratOfNumeral_nonneg (s : Str) : 0 ≤ ratOfNumeral s := by
  cases h : fracDigits s with
  | none => rw [ratOfNumeral, h]; positivity
  | some fs => rw [ratOfNumeral, h]; positivity

theorem foldl_ratOfNumeral_nonneg (l : List Str) (a : ℚ) (ha : 0 ≤ a) :
    0 ≤ l.foldl (fun t n => t + ratOfNumeral n) a := by
  induction l generalizing a with
  | nil => simpa using ha
  | cons n t ih =>
    simp only [List.foldl_cons]
    exact ih _ (add_nonneg ha (ratOfNumeral_nonneg n))

theorem hSum_nonneg (s : Str) : 0 ≤ hSum s :=
  foldl_ratOfNumeral_nonneg _ 0 le_rfl

theorem bareFallback_nonneg (s : Str) : 0 ≤ bareFallback s := by
  cases h : firstNumeral s with
  | none => rw [bareFallback, h]
  | some n => rw [bareFallback, h]; exact ratOfNumeral_nonneg n

theorem hoursValue_nonneg (s : Str) : 0 ≤ hoursValue s := by
  rw [hoursValue]
  by_cases h : hSum s = 0
  · rw [if_pos h]; exact bareFallback_nonneg s
  · rw [if_neg h]; exact hSum_nonneg s

theorem firstNumeral_none_no_digit {s : Str} (h : firstNumeral s = none) :
    ∀ c ∈ s, isDigit c = false := by
  induction s with
  | nil => simp
  | cons c rest ih =>
    intro d hd
    by_cases hc : isDigit c
    · rw [firstNumeral, if_pos hc] at h
      exact absurd h (by simp)
    · rw [firstNumeral, if_neg hc] at h
      rcases List.mem_cons.mp hd with h1 | h1
      · subst h1
        exact Bool.eq_false_iff.mpr hc
      · exact ih h d h1

theorem hScanAux_no_digit (fuel : ℕ) (s : Str) (h : ∀ c ∈ s, isDigit c = false) :
    hScanAux fuel s = [] := by
  induction fuel generalizing s with
  | zero => rfl
  | succ fuel ih =>
    cases s with
    | nil => rfl
    | cons c rest =>
      have hc : isDigit c = false := h c (List.mem_cons_self _ _)
      rw [hScanAux, if_neg (by simp [hc])]
      exact ih rest (fun d hd => h d (List.mem_cons_of_mem _ hd))

theorem hSum_zero_of_no_numeral {s : Str} (h : firstNumeral s = none) : hSum s = 0 := by
  rw [hSum, hMatches, hScanAux_no_digit _ _ (firstNumeral_none_no_digit h)]
  rfl

/-! ## C6: parseMoney -/

/-- C6: parseMoney returns 0 for non-text cells and case-insensitive "n/a";
otherwise the first contiguous decimal numeral parsed as a number, 0 if none
exists.  parseMoney("N/A") = 0, parseMoney("$250.00 + GST") = 250, and the
thousands-separated "1,234.56" yields only the digits before the comma, 1. -/
theorem parseMoney_spec :
    parseMoney Cell.nonText = 0 ∧
    (∀ s, lowerStr s = "n/a".data → parseMoney (Cell.str s) = 0) ∧
    (∀ s, firstNumeral s = none → parseMoney (Cell.str s) = 0) ∧
    (∀ s n, lowerStr s ≠ "n/a".data → firstNumeral s = some n →
      parseMoney (Cell.str s) = ratOfNumeral n) ∧
    parseMoney (Cell.str ("N/A".data)) = 0 ∧
    parseMoney (Cell.str ("$250.00 + GST".data)) = 250 ∧
    parseMoney (Cell.str ("1,234.56".data)) = 1 := by
  refine ⟨rfl, ?_, ?_, ?_, by decide, ?_, ?_⟩
  · intro s hs
    simp only [parseMoney]
    rw [if_pos hs]
  · intro s hs
    simp only [parseMoney]
    rw [hs]
    split <;> rfl
  · intro s n hna hn
    simp only [parseMoney]
    rw [if_neg hna, hn]
  · have h : parseMoney (Cell.str ("$250.00 + GST".data)) = ratOfNumeral ("250.00".data) := rfl
    rw [h, ratOfNumeral_frac_eval _ ("00".data) 250 0 2 (by decide) (by decide) (by decide)
      (by decide)]
    norm_num
  · have h : parseMoney (Cell.str ("1,234.56".data)) = ratOfNumeral ['1'] := rfl
    rw [h, ratOfNumeral_int_eval _ 1 (by decide) (by decide)]
    norm_num

/-- C6 witness: the numeral branch applied to a concrete cell. -/
theorem parseMoney_spec_witness :
    parseMoney (Cell.str ("$9".data)) = ratOfNumeral ['9'] :=
  parseMoney_spec.2.2.2.1 ("$9".data) ['9'] (by decide) (by decide)

/-! ## C10: parsePaidHours never returns a present zero -/

/-- C10: parsePaidHours never returns the number 0: its result is the absent
sentinel or a strictly positive number. -/
theorem parsePaidHours_positive (c : Cell) :
    parsePaidHours c = none ∨ ∃ q, parsePaidHours c = some q ∧ 0 < q := by
  cases c with
  | nonText => exact Or.inl rfl
  | str s =>
    simp only [parsePaidHours]
    by_cases h : 0 < hoursValue s
    · rw [if_pos h]
      exact Or.inr ⟨hoursValue s, rfl, h⟩
    · rw [if_neg h]
      exact Or.inl rfl

/-! ## C3 and C4: parsePaidHours -/

theorem hoursValue_of_hSum_ne (s : Str) (h : hSum s ≠ 0) : hoursValue s = hSum s := by
  simp only [hoursValue]
  rw [if_neg h]

theorem hoursValue_of_hSum_eq (s : Str) (h : hSum s = 0) : hoursValue s = bareFallback s := by
  simp only [hoursValue]
  rw [if_pos h]

theorem parsePaidHours_eval (s : Str) (q : ℚ) (h : hoursValue s = q) :
    parsePaidHours (Cell.str s) = if 0 < q then some q else none := by
  simp only [parsePaidHours, h]

theorem parsePaidHours_none_iff (s : Str) :
    parsePaidHours (Cell.str s) = none ↔ hSum s = 0 ∧ bareFallback s = 0 := by
  constructor
  · intro hnone
    by_cases hpos : 0 < hoursValue s
    · simp only [parsePaidHours] at hnone
      rw [if_pos hpos] at hnone
      cases hnone
    · have hv0 : hoursValue s = 0 := le_antisymm (not_lt.mp hpos) (hoursValue_nonneg s)
      by_cases hz : hSum s = 0
      · refine ⟨hz, ?_⟩
        rw [hoursValue_of_hSum_eq s hz] at hv0
        exact hv0
      · rw [hoursValue_of_hSum_ne s hz] at hv0
        exact absurd hv0 hz
  · rintro ⟨hz, hb⟩
    have hv : hoursValue s = 0 := by rw [hoursValue_of_hSum_eq s hz, hb]
    rw [parsePaidHours_eval s 0 hv, if_neg (lt_irrefl 0)]

/-- C3 counterexample: "0" contains a number, yet parsePaidHours returns the
absent sentinel, not the number 0 — "worked zero hours" is conflated with
"no data". -/
theorem parsePaidHours_zero_cx :
    (firstNumeral ("0".data)).isSome = true ∧ parsePaidHours (Cell.str ("0".data)) = none := by
  exact ⟨by decide, by decide⟩

/-- C3 (amended): parsePaidHours returns the sentinel iff the derived hours
value is zero — no number at all, or the hours-suffixed sum is zero and the
first bare number is zero.  Inputs denoting zero worked hours ("0H", "0")
therefore also yield the sentinel, not the number 0. -/
theorem parsePaidHours_sentinel_amended :
    (∀ s, parsePaidHours (Cell.str s) = none ↔ hSum s = 0 ∧ bareFallback s = 0) ∧
    (∀ s, firstNumeral s = none → parsePaidHours (Cell.str s) = none) ∧
    parsePaidHours Cell.nonText = none ∧
    parsePaidHours (Cell.str ("no data".data)) = none ∧
    parsePaidHours (Cell.str ("0H".data)) = none ∧
    parsePaidHours (Cell.str ("0".data)) = none := by
  refine ⟨parsePaidHours_none_iff, ?_, rfl, by decide, ?_, by decide⟩
  · intro s h
    refine (parsePaidHours_none_iff s).mpr ⟨hSum_zero_of_no_numeral h, ?_⟩
    rw [bareFallback, h]
  · have h2 : ratOfNumeral (['0'] : Str) = ((0 : ℕ) : ℚ) :=
      ratOfNumeral_int_eval _ 0 (by decide) (by decide)
    have h3 : hSum ("0H".data) = 0 := by
      rw [show hSum ("0H".data) = 0 + ratOfNumeral ['0'] from rfl, h2]
      norm_num
    have h5 : bareFallback ("0H".data) = 0 := by
      rw [show bareFallback ("0H".data) = ratOfNumeral ['0'] from rfl, h2]
      norm_num
    exact (parsePaidHours_none_iff _).mpr ⟨h3, h5⟩

/-- C3 witness: a no-number input yields the sentinel. -/
theorem parsePaidHours_sentinel_amended_witness :
    parsePaidHours (Cell.str ("abc".data)) = none :=
  parsePaidHours_sentinel_amended.2.1 ("abc".data) (by decide)

/-- C4 counterexample: "5 0H" has an hours-suffixed occurrence ("0H", sum
0), but parsePaidHours returns the first bare number 5, not that sum. -/
theorem parsePaidHours_suffixed_cx :
    hMatches ("5 0H".data) = [['0']] ∧
    hSum ("5 0H".data) = 0 ∧
    parsePaidHours (Cell.str ("5 0H".data)) = some 5 ∧
    (5 : ℚ) ≠ 0 := by
  have h2 : ratOfNumeral (['0'] : Str) = ((0 : ℕ) : ℚ) :=
    ratOfNumeral_int_eval _ 0 (by decide) (by decide)
  have h3 : hSum ("5 0H".data) = 0 := by
    rw [show hSum ("5 0H".data) = 0 + ratOfNumeral ['0'] from rfl, h2]
    norm_num
  refine ⟨by decide, h3, ?_, by norm_num⟩
  have h4 : bareFallback ("5 0H".data) = 5 := by
    rw [show bareFallback ("5 0H".data) = ratOfNumeral ['5'] from rfl,
      ratOfNumeral_int_eval _ 5 (by decide) (by decide)]
    norm_num
  have hv : hoursValue ("5 0H".data) = 5 := by rw [hoursValue_of_hSum_eq _ h3, h4]
  rw [parsePaidHours_eval _ 5 hv, if_pos (by norm_num)]

/-- C4 (amended): when the sum of hours-suffixed numbers is nonzero it is
returned; when it is zero (no suffixed occurrence, or only zero-valued ones)
the first bare number is returned when positive, else the sentinel.
parsePaidHours("4H 3.5 hours") = 7.5 and parsePaidHours("4 (A) 4.5 (B)") = 4. -/
theorem parsePaidHours_sum_amended :
    (∀ s, hSum s ≠ 0 → parsePaidHours (Cell.str s) = some (hSum s)) ∧
    (∀ s, hSum s = 0 → 0 < bareFallback s → parsePaidHours (Cell.str s) = some (bareFallback s)) ∧
    (∀ s, hSum s = 0 → bareFallback s = 0 → parsePaidHours (Cell.str s) = none) ∧
    parsePaidHours (Cell.str ("4H 3.5 hours".data)) = some (15 / 2) ∧
    parsePaidHours (Cell.str ("4 (A) 4.5 (B)".data)) = some 4 := by
  refine ⟨?_, ?_, ?_, ?_, ?_⟩
  · intro s h
    have hpos : 0 < hSum s := lt_of_le_of_ne (hSum_nonneg s) (Ne.symm h)
    rw [parsePaidHours_eval s (hSum s) (hoursValue_of_hSum_ne s h), if_pos hpos]
  · intro s hz hb
    rw [parsePaidHours_eval s (bareFallback s) (hoursValue_of_hSum_eq s hz), if_pos hb]
  · intro s hz hb
    exact (parsePaidHours_none_iff s).mpr ⟨hz, hb⟩
  · have h1 : hSum ("4H 3.5 hours".data) =
        0 + ratOfNumeral ['4'] + ratOfNumeral ['3', '.', '5'] := rfl
    have h2 : hSum ("4H 3.5 hours".data) = 15 / 2 := by
      rw [h1, ratOfNumeral_int_eval ['4'] 4 (by decide) (by decide),
        ratOfNumeral_frac_eval ['3', '.', '5'] ['5'] 3 5 1 (by decide) (by decide) (by decide)
          (by decide)]
      norm_num
    have hv : hoursValue ("4H 3.5 hours".data) = 15 / 2 := by
      rw [hoursValue_of_hSum_ne _ (by rw [h2]; norm_num), h2]
    rw [parsePaidHours_eval _ (15 / 2) hv, if_pos (by norm_num)]
  · have h1 : hSum ("4 (A) 4.5 (B)".data) = 0 := rfl
    have h4 : bareFallback ("4 (A) 4.5 (B)".data) = 4 := by
      rw [show bareFallback ("4 (A) 4.5 (B)".data) = ratOfNumeral ['4'] from rfl,
        ratOfNumeral_int_eval _ 4 (by decide) (by decide)]
      norm_num
    have hv : hoursValue ("4 (A) 4.5 (B)".data) = 4 := by
      rw [hoursValue_of_hSum_eq _ h1, h4]
    rw [parsePaidHours_eval _ 4 hv, if_pos (by norm_num)]

/-- C4 witness: a nonzero suffixed sum is returned as-is. -/
theorem parsePaidHours_sum_amended_witness :
    parsePaidHours (Cell.str ("2H".data)) = some (hSum ("2H".data)) :=
  parsePaidHours_sum_amended.1 ("2H".data) (by
    rw [show hSum ("2H".data) = 0 + ratOfNumeral ['2'] from rfl,
      ratOfNumeral_int_eval _ 2 (by decide) (by decide)]
    norm_num)

/-! ## C5: the re-parse trigger -/

theorem needsReparse_iff (errors : List PapaError) :
    needsReparse (some errors) = true ↔
      ∃ e ∈ errors, e.type = "FieldMismatch".data ∧ e.code = "TooFewFields".data := by
  simp only [needsReparse, decide_eq_true_eq]
  constructor
  · intro h
    have hne : errors.filter
        (fun e => e.type == "FieldMismatch".data && e.code == "TooFewFields".data) ≠ [] := by
      intro he
      rw [he] at h
      simp at h
    rcases List.exists_mem_of_ne_nil _ hne with ⟨e, he⟩
    have hm := List.mem_filter.mp he
    refine ⟨e, hm.1, ?_⟩
    have := hm.2
    simp only [Bool.and_eq_true, beq_iff_eq] at this
    exact this
  · rintro ⟨e, he, h1, h2⟩
    have hmem : e ∈ errors.filter
        (fun e => e.type == "FieldMismatch".data && e.code == "TooFewFields".data) :=
      List.mem_filter.mpr ⟨he, by simp [h1, h2]⟩
    exact List.length_pos_of_mem hmem

/-- C5 counterexample: a field-count mismatch whose code is TooManyFields
does not trigger the re-parse, contradicting "whether the row has too few or
too many fields"; the header-based rows are kept. -/
theorem needsReparse_cx :
    tooManyErr.type = "FieldMismatch".data ∧
    needsReparse (some [tooManyErr]) = false ∧
    afterRecovery [[("Date".data, "x".data)]] (some [tooManyErr]) [] =
      [[("Date".data, "x".data)]] := by
  exact ⟨by decide, by decide, by decide⟩

/-- C5 (amended): only FieldMismatch errors with code TooFewFields trigger
the array-based re-parse; when one occurs the header-based rows are
abandoned for the recovery rows, and the load fails exactly when recovery
yields zero rows. -/
theorem needsReparse_amended :
    (∀ errors, needsReparse (some errors) = true ↔
      ∃ e ∈ errors, e.type = "FieldMismatch".data ∧ e.code = "TooFewFields".data) ∧
    (∀ rows errors arrays, needsReparse (some errors) = true →
      afterRecovery rows (some errors) arrays = recoverRows arrays) ∧
    (∀ rows errors arrays, needsReparse (some errors) = true →
      (loadOutcome rows (some errors) arrays = none ↔ recoverRows arrays = [])) := by
  have hrec : ∀ (rows : List (List (Str × Str))) errors arrays,
      needsReparse (some errors) = true →
      afterRecovery rows (some errors) arrays = recoverRows arrays := by
    intro rows errors arrays h
    simp only [afterRecovery]
    rw [if_pos h]
  refine ⟨needsReparse_iff, hrec, ?_⟩
  intro rows errors arrays h
  simp only [loadOutcome, hrec rows errors arrays h]
  cases hm : mapHeadersOnRows (recoverRows arrays) with
  | nil =>
    have hre : recoverRows arrays = [] := by
      simp only [mapHeadersOnRows, List.map_eq_nil_iff] at hm
      exact hm
    simp [hre]
  | cons r t =>
    have : recoverRows arrays ≠ [] := by
      intro he
      rw [he] at hm
      simp [mapHeadersOnRows] at hm
    simp [this]

/-- C5 witness: a TooFewFields mismatch makes the pipeline use the recovery
rows. -/
theorem needsReparse_amended_witness :
    afterRecovery [] (some [tooFewErr]) recData = recoverRows recData :=
  needsReparse_amended.2.1 [] [tooFewErr] recData (by decide)

/-! ## C2: ragged-row recovery -/

theorem padLoop_id (fill : ℕ → Str) (fuel : ℕ) (h : List Str) (n : ℕ) (hn : n ≤ h.length) :
    padLoop fill fuel h n = h := by
  cases fuel with
  | zero => rfl
  | succ fuel =>
    rw [padLoop, if_neg (by omega)]

theorem padLoop_append (fill : ℕ → Str) (fuel : ℕ) (h : List Str) (n : ℕ)
    (hf : n ≤ fuel + h.length) :
    padLoop fill fuel h n =
      h ++ (List.range (n - h.length)).map (fun i => fill (h.length + i + 1)) := by
  induction fuel generalizing h with
  | zero =>
    have : n - h.length = 0 := by omega
    simp [padLoop, this]
  | succ fuel ih =>
    by_cases hlt : h.length < n
    · have hf' : n ≤ fuel + (h ++ [fill (h.length + 1)]).length := by
        simp only [List.length_append, List.length_cons, List.length_nil]
        omega
      rw [padLoop, if_pos hlt, ih _ hf']
      have hfun : ((fun i => fill (h.length + i + 1)) ∘ Nat.succ) =
          (fun i => fill (h.length + 1 + i + 1)) := by
        funext i
        simp only [Function.comp_apply]
        congr 1
        omega
      have hshift : (List.range ((n - (h.length + 1)) + 1)).map (fun i => fill (h.length + i + 1)) =
          fill (h.length + 1) ::
            (List.range (n - (h.length + 1))).map (fun i => fill (h.length + 1 + i + 1)) := by
        rw [List.range_succ_eq_map, List.map_cons, List.map_map, hfun]
      have hn1 : n - h.length = (n - (h.length + 1)) + 1 := by omega
      rw [hn1, hshift, List.append_assoc, List.singleton_append]
      simp only [List.length_append, List.length_cons, List.length_nil]
    · rw [padLoop, if_neg hlt]
      have : n - h.length = 0 := by omega
      simp [this]

theorem padLoop_length (fill : ℕ → Str) (fuel : ℕ) (h : List Str) (n : ℕ)
    (hf : n ≤ fuel + h.length) :
    (padLoop fill fuel h n).length = max h.length n := by
  rw [padLoop_append fill fuel h n hf]
  simp only [List.length_append, List.length_map, List.length_range]
  omega

theorem adjustHeader_length (h : List Str) (n : ℕ) : (adjustHeader h n).length = n := by
  rw [adjustHeader]
  by_cases hlt : n < h.length
  · rw [if_pos hlt, padLoop_length _ _ _ _ (by omega)]
    simp only [List.length_take]
    omega
  · rw [if_neg hlt, padLoop_length _ _ _ _ (by omega)]
    omega

theorem adjustHeader_long (h : List Str) (n : ℕ) (hn : n < h.length) :
    adjustHeader h n = h.take n := by
  rw [adjustHeader, if_pos hn]
  exact padLoop_id _ _ _ _ (by simp only [List.length_take]; omega)

theorem adjustHeader_short (h : List Str) (n : ℕ) (hn : h.length < n) :
    adjustHeader h n = h ++ (List.range (n - h.length)).map (fun i => colName (h.length + i + 1)) := by
  rw [adjustHeader, if_neg (by omega)]
  exact padLoop_append _ _ _ _ (by omega)

theorem padCells_length (r : List Str) (n : ℕ) : (padCells r n).length = n := by
  rw [padCells, padLoop_length _ _ _ _ (by omega)]
  simp only [List.length_take]
  omega

theorem foldl_pick_count (lens : List ℕ) (cands : List ℕ) (b0 : ℕ) :
    lens.count b0 ≤
      lens.count (cands.foldl (fun best n => if lens.count best < lens.count n then n else best) b0) ∧
    ∀ x ∈ cands,
      lens.count x ≤
        lens.count (cands.foldl (fun best n => if lens.count best < lens.count n then n else best) b0) := by
  induction cands generalizing b0 with
  | nil => exact ⟨le_rfl, by simp⟩
  | cons a t ih =>
    simp only [List.foldl_cons]
    by_cases hlt : lens.count b0 < lens.count a
    · rw [if_pos hlt]
      refine ⟨le_trans (le_of_lt hlt) (ih a).1, ?_⟩
      intro x hx
      rcases List.mem_cons.mp hx with h1 | h1
      · exact h1 ▸ (ih a).1
      · exact (ih a).2 x h1
    · rw [if_neg hlt]
      refine ⟨(ih b0).1, ?_⟩
      intro x hx
      rcases List.mem_cons.mp hx with h1 | h1
      · exact h1 ▸ le_trans (not_lt.mp hlt) (ih b0).1
      · exact (ih b0).2 x h1

theorem mem_le_foldr_max (lens : List ℕ) : ∀ L ∈ lens, L ≤ lens.foldr max 0 := by
  induction lens with
  | nil => simp
  | cons a t ih =>
    intro L hL
    rcases List.mem_cons.mp hL with h1 | h1
    · simp [h1, le_max_iff]
    · simp only [List.foldr_cons, le_max_iff]
      exact Or.inr (ih L h1)

theorem dominantLen_count (data : List (List Str)) (hb : (bodyArrays data).map List.length ≠ []) :
    ∀ L ∈ (bodyArrays data).map List.length,
      ((bodyArrays data).map List.length).count L ≤
        ((bodyArrays data).map List.length).count
          (dominantLen (bodyArrays data) (rawHeader data).length) := by
  intro L hL
  cases hm : (bodyArrays data).map List.length with
  | nil => exact absurd hm hb
  | cons a t =>
    have hd : dominantLen (bodyArrays data) (rawHeader data).length =
        ((List.range ((a :: t).foldr max 0 + 1)).filter (fun n => (a :: t).contains n)).foldl
          (fun best n => if (a :: t).count best < (a :: t).count n then n else best) 0 := by
      simp only [dominantLen]
      rw [hm]
    rw [hm] at hL
    rw [hd]
    refine (foldl_pick_count (a :: t) _ 0).2 L ?_
    refine List.mem_filter.mpr ⟨?_, ?_⟩
    · exact List.mem_range.mpr (Nat.lt_succ_of_le (mem_le_foldr_max _ L hL))
    · simpa using hL

/-- C2: in the array-based recovery, the dominant length is a most frequent
body-row length; the header is trimmed to it when longer and padded with
synthetic Col names when shorter; every rebuilt record is the positional zip
of the adjusted header with the truncated/padded row, so it has exactly the
dominant number of keys.  For body lengths [5,5,5,6,5] under a 6-column
header, the header is trimmed to 5 columns and every record has 5 keys. -/
theorem ragged_recovery (data : List (List Str)) :
    (bodyArrays data ≠ [] → ∀ L ∈ (bodyArrays data).map List.length,
      ((bodyArrays data).map List.length).count L ≤
        ((bodyArrays data).map List.length).count
          (dominantLen (bodyArrays data) (rawHeader data).length)) ∧
    (recHeader data).length = dominantLen (bodyArrays data) (rawHeader data).length ∧
    (dominantLen (bodyArrays data) (rawHeader data).length < (rawHeader data).length →
      recHeader data = (rawHeader data).take (dominantLen (bodyArrays data) (rawHeader data).length)) ∧
    ((rawHeader data).length < dominantLen (bodyArrays data) (rawHeader data).length →
      recHeader data = rawHeader data ++
        (List.range (dominantLen (bodyArrays data) (rawHeader data).length - (rawHeader data).length)).map
          (fun i => colName ((rawHeader data).length + i + 1))) ∧
    (∀ rec ∈ recoverRows data, rec.length = dominantLen (bodyArrays data) (rawHeader data).length) ∧
    (∀ rec ∈ recoverRows data, rec.map Prod.fst = recHeader data) ∧
    dominantLen (bodyArrays recData) (rawHeader recData).length = 5 ∧
    recHeader recData = (rawHeader recData).take 5 ∧
    (∀ rec ∈ recoverRows recData, rec.length = 5) := by
  refine ⟨?_, adjustHeader_length _ _, adjustHeader_long _ _, adjustHeader_short _ _, ?_, ?_,
    by decide, by decide, by decide⟩
  · intro hb
    exact dominantLen_count data (fun he => hb (List.map_eq_nil_iff.mp he))
  · intro rec hrec
    rcases List.mem_map.mp hrec with ⟨r, _, he⟩
    subst he
    have hh : (recHeader data).length = dominantLen (bodyArrays data) (rawHeader data).length :=
      adjustHeader_length _ _
    rw [List.length_zip, hh, padCells_length]
    exact min_self _
  · intro rec hrec
    rcases List.mem_map.mp hrec with ⟨r, _, he⟩
    subst he
    have hh : (recHeader data).length = dominantLen (bodyArrays data) (rawHeader data).length :=
      adjustHeader_length _ _
    exact List.map_fst_zip _ _ (by rw [hh, padCells_length])

/-- C2 witness: on the worked example the minority length 6 occurs no more
often than the dominant length. -/
theorem ragged_recovery_witness :
    ((bodyArrays recData).map List.length).count 6 ≤
      ((bodyArrays recData).map List.length).count
        (dominantLen (bodyArrays recData) (rawHeader recData).length) :=
  (ragged_recovery recData).1 (by decide) 6 (by decide)

/-! ## C1 and C9: payout allocation -/

theorem lookupS_foldl_setS_const (L : List Str) (m : List (Str × ℚ)) (c : ℚ) (e : Str) :
    lookupS (L.foldl (fun m x => setS m x c) m) e = if e ∈ L then some c else lookupS m e := by
  induction L generalizing m with
  | nil => simp
  | cons a t ih =>
    simp only [List.foldl_cons]
    rw [ih]
    by_cases ht : e ∈ t
    · rw [if_pos ht, if_pos (List.mem_cons_of_mem _ ht)]
    · rw [if_neg ht]
      by_cases ha : e = a
      · subst ha
        rw [lookupS_setS_self, if_pos (List.mem_cons_self _ _)]
      · rw [lookupS_setS_ne _ _ _ _ ha, if_neg (by simp [ha, ht])]

theorem payoutsInit_multi (pres : List Str) (v : ℚ) (h : 2 ≤ pres.length) :
    ∀ e ∈ pres, lookupS (payoutsInit pres v) e = some (v * (1 / 4)) := by
  intro e he
  match pres, he with
  | a :: b :: rest, he =>
    rw [show payoutsInit (a :: b :: rest) v =
        (a :: b :: rest).foldl (fun m e => setS m e (v * (1 / 4))) [] from rfl,
      lookupS_foldl_setS_const, if_pos he]

theorem payoutsInit_not_mem (pres : List Str) (v : ℚ) (e : Str) (he : e ∉ pres) :
    lookupS (payoutsInit pres v) e = none := by
  match pres with
  | [] => rfl
  | [a] =>
    have : ¬ a = e := fun h => he (h ▸ List.mem_singleton_self a)
    simp [payoutsInit, setS, lookupS, this]
  | a :: b :: rest =>
    rw [show payoutsInit (a :: b :: rest) v =
        (a :: b :: rest).foldl (fun m e => setS m e (v * (1 / 4))) [] from rfl,
      lookupS_foldl_setS_const, if_neg he]
    rfl

theorem payoutStep_lookup_other (v sub : ℚ) (m : List (Str × ℚ)) (a e : Str) (hne : e ≠ a) :
    lookupS (payoutStep v sub m a) e = lookupS m e := by
  simp only [payoutStep]
  split_ifs with h1 h2
  · exact lookupS_setS_ne _ _ _ _ hne
  · exact lookupS_setS_ne _ _ _ _ hne
  · rfl

theorem foldl_payoutStep_uppal (v sub : ℚ) (es : List Str) (m : List (Str × ℚ)) :
    lookupS (es.foldl (payoutStep v sub) m) uppalName =
      if uppalName ∈ es then some sub else lookupS m uppalName := by
  induction es generalizing m with
  | nil => simp
  | cons a t ih =>
    simp only [List.foldl_cons]
    rw [ih]
    by_cases ha : a = uppalName
    · have hs : payoutStep v sub m a = setS m uppalName sub := by
        simp only [payoutStep]
        rw [if_pos ha, ha]
      by_cases ht : uppalName ∈ t
      · rw [if_pos ht, if_pos (List.mem_cons_of_mem _ ht)]
      · rw [if_neg ht, hs, lookupS_setS_self, if_pos (List.mem_cons.mpr (Or.inl ha.symm))]
    · have hne : uppalName ≠ a := fun h => ha h.symm
      by_cases ht : uppalName ∈ t
      · rw [if_pos ht, if_pos (List.mem_cons_of_mem _ ht)]
      · have hnm : uppalName ∉ a :: t := by
          simp only [List.mem_cons, not_or]
          exact ⟨hne, ht⟩
        rw [if_neg ht, payoutStep_lookup_other _ _ _ _ _ hne, if_neg hnm]

theorem foldl_payoutStep_fixed (v sub : ℚ) (es : List Str) (m : List (Str × ℚ)) (e : Str)
    (hf : fixedRateEmployees.contains e = true) :
    lookupS (es.foldl (payoutStep v sub) m) e = lookupS m e := by
  induction es generalizing m with
  | nil => rfl
  | cons a t ih =>
    simp only [List.foldl_cons]
    rw [ih]
    by_cases hae : e = a
    · subst hae
      have h1 : ¬ e = uppalName := by
        intro hu
        rw [hu] at hf
        exact absurd hf (by decide)
      have hstep : payoutStep v sub m e = m := by
        simp only [payoutStep]
        rw [if_neg h1, if_neg (by
          simp only [Bool.and_eq_true, decide_eq_true_eq]
          rintro ⟨hc, _⟩
          rw [hf] at hc
          cases hc)]
      rw [hstep]
    · rw [payoutStep_lookup_other _ _ _ _ _ hae]

theorem foldl_payoutStep_keepV (v sub : ℚ) (es : List Str) (m : List (Str × ℚ)) (e : Str)
    (hne : e ≠ uppalName) (hf : fixedRateEmployees.contains e = false)
    (hm : lookupS m e = some v) :
    lookupS (es.foldl (payoutStep v sub) m) e = some v := by
  induction es generalizing m with
  | nil => exact hm
  | cons a t ih =>
    simp only [List.foldl_cons]
    by_cases hae : e = a
    · subst hae
      by_cases hz : payoutFalsy (lookupS m e) = true
      · have hstep : payoutStep v sub m e = setS m e v := by
          simp only [payoutStep]
          rw [if_neg hne, if_pos (by
            simp only [Bool.and_eq_true, decide_eq_true_eq]
            exact ⟨hf, hz⟩)]
        exact ih _ (by rw [hstep, lookupS_setS_self])
      · have hstep : payoutStep v sub m e = m := by
          simp only [payoutStep]
          rw [if_neg hne, if_neg (by simp [hz])]
        exact ih _ (by rw [hstep]; exact hm)
    · exact ih _ (by rw [payoutStep_lookup_other _ _ _ _ _ hae]; exact hm)

theorem foldl_payoutStep_full (v sub : ℚ) (es : List Str) (m : List (Str × ℚ)) (e : Str)
    (he : e ∈ es) (hne : e ≠ uppalName) (hf : fixedRateEmployees.contains e = false)
    (hm : lookupS m e = none) :
    lookupS (es.foldl (payoutStep v sub) m) e = some v := by
  induction es generalizing m with
  | nil => simp at he
  | cons a t ih =>
    simp only [List.foldl_cons]
    by_cases hae : e = a
    · subst hae
      have hstep : payoutStep v sub m e = setS m e v := by
        simp only [payoutStep]
        rw [if_neg hne, if_pos (by
          simp only [Bool.and_eq_true, decide_eq_true_eq]
          exact ⟨hf, by rw [hm]; rfl⟩)]
      rw [hstep]
      exact foldl_payoutStep_keepV v sub t _ e hne hf (lookupS_setS_self m e v)
    · rcases List.mem_cons.mp he with h1 | h1
      · exact absurd h1 hae
      · exact ih _ h1 (by rw [payoutStep_lookup_other _ _ _ _ _ hae]; exact hm)

theorem computePayouts_uppal (E : List Str) (V : ℚ) (h : uppalName ∈ E) :
    lookupS (computePayouts E V) uppalName = some (V * (1 / 2)) := by
  rw [computePayouts, foldl_payoutStep_uppal, if_pos h, subPayout, if_pos h]

theorem computePayouts_fixed_one (E : List Str) (V : ℚ)
    (h : (E.filter (fun e => fixedRateEmployees.contains e)).length = 1) :
    ∀ e ∈ E.filter (fun e => fixedRateEmployees.contains e),
      lookupS (computePayouts E V) e = some (V * (1 / 2)) := by
  intro e he
  have hf : fixedRateEmployees.contains e = true := by
    simpa using (List.mem_filter.mp he).2
  rw [computePayouts, foldl_payoutStep_fixed _ _ _ _ _ hf]
  rcases List.length_eq_one.mp h with ⟨a, ha⟩
  rw [ha]
  have : e = a := by
    rw [ha] at he
    exact List.mem_singleton.mp he
  subst this
  simp [payoutsInit, setS, lookupS]

theorem computePayouts_fixed_multi (E : List Str) (V : ℚ)
    (h : 2 ≤ (E.filter (fun e => fixedRateEmployees.contains e)).length) :
    ∀ e ∈ E.filter (fun e => fixedRateEmployees.contains e),
      lookupS (computePayouts E V) e = some (V * (1 / 4)) := by
  intro e he
  have hf : fixedRateEmployees.contains e = true := by
    simpa using (List.mem_filter.mp he).2
  rw [computePayouts, foldl_payoutStep_fixed _ _ _ _ _ hf]
  exact payoutsInit_multi _ _ h e he

theorem computePayouts_other (E : List Str) (V : ℚ) (e : Str) (he : e ∈ E)
    (hne : e ≠ uppalName) (hf : fixedRateEmployees.contains e = false) :
    lookupS (computePayouts E V) e = some V := by
  rw [computePayouts]
  refine foldl_payoutStep_full _ _ _ _ _ he hne hf ?_
  refine payoutsInit_not_mem _ _ _ ?_
  intro hmem
  have := (List.mem_filter.mp hmem).2
  rw [hf] at this
  cases this

theorem mem_foldl_setS_const (L : List Str) (m : List (Str × ℚ)) (c : ℚ) :
    ∀ kv ∈ L.foldl (fun m x => setS m x c) m, kv ∈ m ∨ kv.1 ∈ L := by
  induction L generalizing m with
  | nil => exact fun kv h => Or.inl h
  | cons a t ih =>
    intro kv hkv
    simp only [List.foldl_cons] at hkv
    rcases ih _ kv hkv with h1 | h1
    · rcases mem_setS kv h1 with h2 | h2
      · exact Or.inr (h2 ▸ List.mem_cons_self _ _)
      · exact Or.inl h2
    · exact Or.inr (List.mem_cons_of_mem _ h1)

theorem payoutsInit_keys (pres : List Str) (v : ℚ) :
    ∀ kv ∈ payoutsInit pres v, kv.1 ∈ pres := by
  intro kv hkv
  match pres, hkv with
  | [e], hkv =>
    simp only [payoutsInit, setS, List.mem_singleton] at hkv
    subst hkv
    exact List.mem_singleton_self e
  | a :: b :: rest, hkv =>
    rcases mem_foldl_setS_const (a :: b :: rest) [] _ kv hkv with h1 | h1
    · simp at h1
    · exact h1

theorem mem_foldl_payoutStep (v sub : ℚ) (es : List Str) (m : List (Str × ℚ)) :
    ∀ kv ∈ es.foldl (payoutStep v sub) m, kv ∈ m ∨ kv.1 ∈ es := by
  induction es generalizing m with
  | nil => exact fun kv h => Or.inl h
  | cons a t ih =>
    intro kv hkv
    simp only [List.foldl_cons] at hkv
    rcases ih _ kv hkv with h1 | h1
    · have hstep : ∀ x ∈ payoutStep v sub m a, x.1 = a ∨ x ∈ m := by
        intro x hx
        simp only [payoutStep] at hx
        split_ifs at hx with h2 h3
        · exact mem_setS x hx
        · exact mem_setS x hx
        · exact Or.inr hx
      rcases hstep kv h1 with h2 | h2
      · exact Or.inr (h2 ▸ List.mem_cons_self _ _)
      · exact Or.inl h2
    · exact Or.inr (List.mem_cons_of_mem _ h1)

theorem computePayouts_keys (E : List Str) (V : ℚ) :
    ∀ kv ∈ computePayouts E V, kv.1 ∈ E := by
  intro kv hkv
  rw [computePayouts] at hkv
  rcases mem_foldl_payoutStep _ _ _ _ kv hkv with h1 | h1
  · have := payoutsInit_keys _ _ kv h1
    exact (List.mem_filter.mp this).1
  · exact h1

/-- C1: the payout allocation of the Record Processor.  The subcontractor
"Uppal/Dhruv" is paid half the job value; when exactly one fixed-rate
occurrence is on the job it is paid half the value, and with two or more
each is paid a quarter; every other employee is credited the full value.
Worked examples: [subcontractor, Alice] at 100 pays 50 and 100 (total 150);
two fixed-rate employees at 200 get 50 each; one fixed-rate employee at 200
gets 100. -/
theorem payout_allocation :
    (∀ (E : List Str) (V : ℚ), uppalName ∈ E →
      lookupS (computePayouts E V) uppalName = some (V * (1 / 2))) ∧
    (∀ (E : List Str) (V : ℚ),
      (E.filter (fun e => fixedRateEmployees.contains e)).length = 1 →
      ∀ e ∈ E.filter (fun e => fixedRateEmployees.contains e),
        lookupS (computePayouts E V) e = some (V * (1 / 2))) ∧
    (∀ (E : List Str) (V : ℚ),
      2 ≤ (E.filter (fun e => fixedRateEmployees.contains e)).length →
      ∀ e ∈ E.filter (fun e => fixedRateEmployees.contains e),
        lookupS (computePayouts E V) e = some (V * (1 / 4))) ∧
    (∀ (E : List Str) (V : ℚ) (e : Str), e ∈ E → e ≠ uppalName →
      fixedRateEmployees.contains e = false →
      lookupS (computePayouts E V) e = some V) ∧
    lookupS (computePayouts [uppalName, "Alice".data] 100) uppalName = some 50 ∧
    lookupS (computePayouts [uppalName, "Alice".data] 100) ("Alice".data) = some 100 ∧
    payoutTotal (computePayouts [uppalName, "Alice".data] 100) = 150 ∧
    lookupS (computePayouts ["Randew".data, "Nikitha".data] 200) ("Randew".data) = some 50 ∧
    lookupS (computePayouts ["Randew".data, "Nikitha".data] 200) ("Nikitha".data) = some 50 ∧
    lookupS (computePayouts ["Randew".data] 200) ("Randew".data) = some 100 := by
  refine ⟨computePayouts_uppal, computePayouts_fixed_one, computePayouts_fixed_multi,
    computePayouts_other, ?_, ?_, ?_, ?_, ?_, ?_⟩
  all_goals
    simp [computePayouts, payoutsInit, payoutStep, subPayout, setS, lookupS, payoutFalsy,
      payoutTotal, uppalName, fixedRateEmployees]
  all_goals norm_num

/-- C1 witness: the subcontractor rule applied to a concrete job. -/
theorem payout_allocation_witness :
    lookupS (computePayouts [uppalName, "Bob".data] 80) uppalName = some (80 * (1 / 2)) :=
  payout_allocation.1 [uppalName, "Bob".data] 80 (List.mem_cons_self _ _)

/-- C9: every key of a ProcessedJob's employeePayouts is a member of that
job's employees list, while the payout total need not equal the job's value
(the demo row allocates a total of 150 against a value of 100). -/
theorem payout_keys_member :
    (∀ (fb : Str → Option DateYMD) (rows : List (List (Str × Str))),
      ∀ job ∈ processData fb rows, ∀ kv ∈ job.employeePayouts, kv.1 ∈ job.employees) ∧
    (∃ job ∈ processData noFb [demoRow],
      payoutTotal job.employeePayouts = 150 ∧ job.value = 100) := by
  constructor
  · intro fb rows job hjob kv hkv
    rcases List.mem_filterMap.mp hjob with ⟨row, _, hpr⟩
    cases hd : parseDateSmart fb (getField row ("Date".data)) with
    | none =>
      simp only [processRow, hd] at hpr
      cases hpr
    | some date =>
      simp only [processRow, hd, Option.some.injEq] at hpr
      subst hpr
      exact computePayouts_keys _ _ kv hkv
  · have hmoney : parseMoney (Cell.str ("100".data)) = 100 := by
      rw [show parseMoney (Cell.str ("100".data)) = ratOfNumeral ("100".data) from rfl,
        ratOfNumeral_int_eval _ 100 (by decide) (by decide)]
      norm_num
    refine ⟨demoJob, ?_, ?_, ?_⟩
    · rw [show processData noFb [demoRow] = [demoJob] from rfl]
      exact List.mem_singleton_self _
    · rw [show demoJob.employeePayouts =
          computePayouts [uppalName, "Alice".data] (parseMoney (Cell.str ("100".data))) from rfl,
        hmoney]
      simp [computePayouts, payoutsInit, payoutStep, subPayout, setS, lookupS, payoutFalsy,
        payoutTotal, uppalName, fixedRateEmployees]
      norm_num
    · rw [show demoJob.value = parseMoney (Cell.str ("100".data)) from rfl, hmoney]

/-- C9 witness: a concrete payout key of the demo job is one of its
employees. -/
theorem payout_keys_member_witness : uppalName ∈ demoJob.employees :=
  payout_keys_member.1 noFb [demoRow] demoJob
    (by
      rw [show processData noFb [demoRow] = [demoJob] from rfl]
      exact List.mem_singleton_self _)
    (uppalName, subPayout [uppalName, "Alice".data] (parseMoney (Cell.str ("100".data))))
    (show _ ∈ (uppalName, subPayout [uppalName, "Alice".data]
        (parseMoney (Cell.str ("100".data)))) ::
        [("Alice".data, parseMoney (Cell.str ("100".data)))] from List.mem_cons_self _ _)

/-! ## C8: hourly performance -/

theorem addStat_zero_left (b : HStat) : addStat ⟨0, 0, 0⟩ b = b := by
  cases b
  simp [addStat]

theorem addStat_assoc (a b c : HStat) : addStat (addStat a b) c = addStat a (addStat b c) := by
  cases a; cases b; cases c
  simp [addStat, add_assoc]

theorem scaleStat_zero (u : HStat) : scaleStat 0 u = ⟨0, 0, 0⟩ := by
  simp [scaleStat]

theorem scaleStat_succ (c : ℕ) (u : HStat) :
    scaleStat (c + 1) u = addStat u (scaleStat c u) := by
  cases u
  simp only [scaleStat, addStat, HStat.mk.injEq]
  refine ⟨by ring, by push_cast; ring, by push_cast; ring⟩

theorem addStat_zero_right (a : HStat) : addStat a ⟨0, 0, 0⟩ = a := by
  cases a
  simp [addStat]

theorem getStat_hourlyEmpStep_excl (row : Job) (m : List (Str × HStat)) (emp : Str)
    (hex : EXCLUDE_HOURLY.contains (normalizeName emp) = true) :
    hourlyEmpStep row m emp = m := by
  simp only [hourlyEmpStep]
  rw [if_pos hex]

theorem getStat_hourlyEmpStep_self (row : Job) (m : List (Str × HStat)) (emp : Str)
    (hex : EXCLUDE_HOURLY.contains (normalizeName emp) = false) :
    getStat (hourlyEmpStep row m emp) (trim emp) =
      addStat (getStat m (trim emp)) (rowUnit row) := by
  simp only [hourlyEmpStep]
  rw [if_neg (by intro h; rw [hex] at h; exact Bool.false_ne_true h), getStat, lookupS_setS_self,
    Option.getD_some]
  cases hp : row.paidHours with
  | none =>
    cases hb : row.isBillable <;>
      simp [hp, hb, addStat, rowUnit, getStat]
  | some hq =>
    cases hb : row.isBillable <;>
      simp [hp, hb, addStat, rowUnit, getStat]

theorem getStat_hourlyEmpStep_ne (row : Job) (m : List (Str × HStat)) (emp k : Str)
    (hne : trim emp ≠ k) :
    getStat (hourlyEmpStep row m emp) k = getStat m k := by
  simp only [hourlyEmpStep]
  by_cases hex : EXCLUDE_HOURLY.contains (normalizeName emp) = true
  · rw [if_pos hex]
  · rw [if_neg hex, getStat, lookupS_setS_ne _ _ _ _ (fun h => hne h.symm), getStat]

theorem getStat_foldl_emp (row : Job) (es : List Str) (m : List (Str × HStat)) (k : Str) :
    getStat (es.foldl (hourlyEmpStep row) m) k =
      addStat (getStat m k)
        (scaleStat (es.countP (fun emp => trim emp == k &&
          !(EXCLUDE_HOURLY.contains (normalizeName emp)))) (rowUnit row)) := by
  induction es generalizing m with
  | nil => simp [scaleStat_zero, addStat_zero_right]
  | cons emp t ih =>
    simp only [List.foldl_cons]
    rw [ih, List.countP_cons]
    by_cases hex : EXCLUDE_HOURLY.contains (normalizeName emp) = true
    · rw [getStat_hourlyEmpStep_excl row m emp hex, if_neg (by rw [hex]; simp), Nat.add_zero]
    · have hex' : EXCLUDE_HOURLY.contains (normalizeName emp) = false := by
        cases hcc : EXCLUDE_HOURLY.contains (normalizeName emp)
        · rfl
        · exact absurd hcc hex
      by_cases hk : trim emp = k
      · subst hk
        rw [getStat_hourlyEmpStep_self row m emp hex', if_pos (by rw [hex']; simp),
          scaleStat_succ, ← addStat_assoc]
      · rw [getStat_hourlyEmpStep_ne row m emp k hk, if_neg (by
          simp only [Bool.and_eq_true, beq_iff_eq]
          rintro ⟨h, _⟩
          exact hk h), Nat.add_zero]

theorem scaleStat_rowUnit (c : ℕ) (row : Job) :
    scaleStat c (rowUnit row) =
      ⟨if row.paidHours.isSome then c else 0, (c : ℚ) * row.paidHours.getD 0,
       if row.isBillable then (c : ℚ) * row.value else 0⟩ := by
  cases hp : row.paidHours.isSome <;> cases hb : row.isBillable <;>
    simp [scaleStat, rowUnit, hp, hb]

theorem getStat_hourlyRowStep (m : List (Str × HStat)) (row : Job) (k : Str) :
    getStat (hourlyRowStep m row) k =
      addStat (getStat m k) (scaleStat (occExInRow k row) (rowUnit row)) := by
  simp only [hourlyRowStep]
  by_cases he : row.employees.isEmpty = true
  · rw [if_pos he]
    have h0 : row.employees = [] := by
      cases hc : row.employees with
      | nil => rfl
      | cons a t =>
        rw [hc] at he
        cases he
    simp [occExInRow, h0, scaleStat_zero, addStat_zero_right]
  · rw [if_neg he]
    exact getStat_foldl_emp row row.employees m k

theorem getStat_foldl_rows (rows : List Job) (m : List (Str × HStat)) (k : Str) :
    getStat (rows.foldl hourlyRowStep m) k =
      addStat (getStat m k)
        ⟨(rows.map (fun r => if r.paidHours.isSome then occExInRow k r else 0)).sum,
         (rows.map (fun r => (occExInRow k r : ℚ) * r.paidHours.getD 0)).sum,
         (rows.map (fun r => if r.isBillable then (occExInRow k r : ℚ) * r.value else 0)).sum⟩ := by
  induction rows generalizing m with
  | nil => simp [addStat_zero_right]
  | cons r t ih =>
    simp only [List.foldl_cons, List.map_cons, List.sum_cons]
    rw [ih, getStat_hourlyRowStep, scaleStat_rowUnit, addStat_assoc]
    congr 1

theorem getStat_hourlyAccum (rows : List Job) (k : Str) :
    getStat (hourlyAccum rows) k =
      ⟨(rows.map (fun r => if r.paidHours.isSome then occExInRow k r else 0)).sum,
       (rows.map (fun r => (occExInRow k r : ℚ) * r.paidHours.getD 0)).sum,
       (rows.map (fun r => if r.isBillable then (occExInRow k r : ℚ) * r.value else 0)).sum⟩ := by
  rw [hourlyAccum, getStat_foldl_rows, show getStat [] k = ⟨0, 0, 0⟩ from rfl, addStat_zero_left]

theorem mem_hourlyEmpStep (row : Job) (m : List (Str × HStat)) (emp : Str) :
    ∀ kv ∈ hourlyEmpStep row m emp, kv ∈ m ∨
      (kv.1 = trim emp ∧ EXCLUDE_HOURLY.contains (normalizeName emp) = false) := by
  intro kv hkv
  simp only [hourlyEmpStep] at hkv
  by_cases hex : EXCLUDE_HOURLY.contains (normalizeName emp) = true
  · rw [if_pos hex] at hkv
    exact Or.inl hkv
  · rw [if_neg hex] at hkv
    have hex' : EXCLUDE_HOURLY.contains (normalizeName emp) = false := by
      cases hcc : EXCLUDE_HOURLY.contains (normalizeName emp)
      · rfl
      · exact absurd hcc hex
    rcases mem_setS kv hkv with h1 | h1
    · exact Or.inr ⟨h1, hex'⟩
    · exact Or.inl h1

theorem keyP_foldl_emp (row : Job) (es : List Str) (m : List (Str × HStat))
    (hm : ∀ kv ∈ m, EXCLUDE_HOURLY.contains (lowerStr kv.1) = false ∧ trim kv.1 = kv.1) :
    ∀ kv ∈ es.foldl (hourlyEmpStep row) m,
      EXCLUDE_HOURLY.contains (lowerStr kv.1) = false ∧ trim kv.1 = kv.1 := by
  induction es generalizing m with
  | nil => exact hm
  | cons emp t ih =>
    simp only [List.foldl_cons]
    refine ih _ ?_
    intro kv hkv
    rcases mem_hourlyEmpStep row m emp kv hkv with h1 | ⟨h1, h2⟩
    · exact hm kv h1
    · rw [h1]
      exact ⟨h2, trim_idem emp⟩

theorem keyP_foldl_rows (rows : List Job) (m : List (Str × HStat))
    (hm : ∀ kv ∈ m, EXCLUDE_HOURLY.contains (lowerStr kv.1) = false ∧ trim kv.1 = kv.1) :
    ∀ kv ∈ rows.foldl hourlyRowStep m,
      EXCLUDE_HOURLY.contains (lowerStr kv.1) = false ∧ trim kv.1 = kv.1 := by
  induction rows generalizing m with
  | nil => exact hm
  | cons r t ih =>
    simp only [List.foldl_cons]
    refine ih _ ?_
    intro kv hkv
    simp only [hourlyRowStep] at hkv
    by_cases he : r.employees.isEmpty = true
    · rw [if_pos he] at hkv
      exact hm kv hkv
    · rw [if_neg he] at hkv
      exact keyP_foldl_emp r r.employees m hm kv hkv

theorem hourlyAccum_keyP (rows : List Job) :
    ∀ kv ∈ hourlyAccum rows,
      EXCLUDE_HOURLY.contains (lowerStr kv.1) = false ∧ trim kv.1 = kv.1 :=
  keyP_foldl_rows rows [] (by simp)

theorem nodup_hourlyEmpStep (row : Job) (m : List (Str × HStat)) (emp : Str)
    (h : (m.map Prod.fst).Nodup) : ((hourlyEmpStep row m emp).map Prod.fst).Nodup := by
  simp only [hourlyEmpStep]
  by_cases hex : EXCLUDE_HOURLY.contains (normalizeName emp) = true
  · rw [if_pos hex]
    exact h
  · rw [if_neg hex]
    exact keys_nodup_setS _ _ h

theorem nodup_foldl_emp (row : Job) (es : List Str) (m : List (Str × HStat))
    (hm : (m.map Prod.fst).Nodup) : ((es.foldl (hourlyEmpStep row) m).map Prod.fst).Nodup := by
  induction es generalizing m with
  | nil => exact hm
  | cons emp t ih =>
    simp only [List.foldl_cons]
    exact ih _ (nodup_hourlyEmpStep row m emp hm)

theorem hourlyAccum_nodup (rows : List Job) : ((hourlyAccum rows).map Prod.fst).Nodup := by
  rw [hourlyAccum]
  have haux : ∀ (rs : List Job) (m : List (Str × HStat)), (m.map Prod.fst).Nodup →
      ((rs.foldl hourlyRowStep m).map Prod.fst).Nodup := by
    intro rs
    induction rs with
    | nil => exact fun m hm => hm
    | cons r t ih =>
      intro m hm
      simp only [List.foldl_cons]
      refine ih _ ?_
      simp only [hourlyRowStep]
      by_cases he : r.employees.isEmpty = true
      · rw [if_pos he]
        exact hm
      · rw [if_neg he]
        exact nodup_foldl_emp r r.employees m hm
  exact haux rows [] (by simp)

theorem occEx_eq_occ (k : Str) (row : Job)
    (hk : EXCLUDE_HOURLY.contains (lowerStr k) = false) :
    occExInRow k row = occInRow k row := by
  rw [occExInRow, occInRow]
  apply List.countP_congr
  intro emp _
  by_cases h : trim emp = k
  · have hc : EXCLUDE_HOURLY.contains (normalizeName emp) = false := by
      show EXCLUDE_HOURLY.contains (lowerStr (trim emp)) = false
      rw [h]
      exact hk
    rw [hc]
    simp
  · simp [h]

theorem sumJobs_eq_spec (rows : List Job) (k : Str)
    (hk : EXCLUDE_HOURLY.contains (lowerStr k) = false) :
    (rows.map (fun r => if r.paidHours.isSome then occExInRow k r else 0)).sum =
      specJobsWithHours rows k := by
  rw [specJobsWithHours]
  congr 1
  apply List.map_congr_left
  intro r _
  rw [occEx_eq_occ k r hk]

theorem sumHours_eq_spec (rows : List Job) (k : Str)
    (hk : EXCLUDE_HOURLY.contains (lowerStr k) = false) :
    (rows.map (fun r => (occExInRow k r : ℚ) * r.paidHours.getD 0)).sum =
      specPaidHours rows k := by
  rw [specPaidHours]
  congr 1
  apply List.map_congr_left
  intro r _
  rw [occEx_eq_occ k r hk]
  cases hp : r.paidHours <;> simp [hp]

theorem sumRev_eq_spec (rows : List Job) (k : Str)
    (hk : EXCLUDE_HOURLY.contains (lowerStr k) = false) :
    (rows.map (fun r => if r.isBillable then (occExInRow k r : ℚ) * r.value else 0)).sum =
      specRevenue rows k := by
  rw [specRevenue]
  congr 1
  apply List.map_congr_left
  intro r _
  rw [occEx_eq_occ k r hk]

theorem bestHourly_mem_struct (rows : List Job) :
    ∀ e ∈ renderBestHourly rows,
      ∃ kv, kv ∈ hourlyAccum rows ∧ 5 ≤ kv.2.jobsWithPaidHours ∧ e = mkHEntry kv := by
  intro e he
  simp only [renderBestHourly] at he
  have h1 := List.mem_of_mem_take he
  have h2 := (List.perm_insertionSort hEntryGE _).mem_iff.mp h1
  rcases List.mem_map.mp h2 with ⟨kv, hkv, he2⟩
  have hf := List.mem_filter.mp hkv
  exact ⟨kv, hf.1, by simpa using hf.2, he2.symm⟩

/-- C8: the hourly-performance list excludes the denylisted non-hourly names
(matched after trimming and lower-casing); every entry has at least 5 jobs
with a present hours value; each entry carries the occurrence-weighted sums
of present paid hours and of billable revenue over the whole job sequence,
and the revenue-per-hours ratio; the list has at most 10 entries and is
ordered by that ratio descending. -/
theorem bestHourly_spec (rows : List Job) :
    (∀ e ∈ renderBestHourly rows,
      EXCLUDE_HOURLY.contains (normalizeName e.employee) = false) ∧
    (∀ e ∈ renderBestHourly rows, 5 ≤ e.jobsWithPaidHours) ∧
    (∀ e ∈ renderBestHourly rows,
      e.jobsWithPaidHours = specJobsWithHours rows e.employee ∧
      e.paidHours = specPaidHours rows e.employee ∧
      e.revenue = specRevenue rows e.employee ∧
      e.perHour = (if 0 < e.paidHours then e.revenue / e.paidHours else 0)) ∧
    (renderBestHourly rows).length ≤ 10 ∧
    List.Pairwise hEntryGE (renderBestHourly rows) := by
  refine ⟨?_, ?_, ?_, ?_, ?_⟩
  · intro e he
    rcases bestHourly_mem_struct rows e he with ⟨kv, hacc, _, he2⟩
    have hp := hourlyAccum_keyP rows kv hacc
    subst he2
    show EXCLUDE_HOURLY.contains (lowerStr (trim kv.1)) = false
    rw [hp.2]
    exact hp.1
  · intro e he
    rcases bestHourly_mem_struct rows e he with ⟨kv, _, h5, he2⟩
    subst he2
    exact h5
  · intro e he
    rcases bestHourly_mem_struct rows e he with ⟨kv, hacc, _, he2⟩
    obtain ⟨k, v⟩ := kv
    have hp := hourlyAccum_keyP rows (k, v) hacc
    have hlook : lookupS (hourlyAccum rows) k = some v :=
      mem_lookupS (hourlyAccum_nodup rows) hacc
    have hget : getStat (hourlyAccum rows) k = v := by
      rw [getStat, hlook]
      rfl
    rw [getStat_hourlyAccum] at hget
    subst he2
    refine ⟨?_, ?_, ?_, rfl⟩
    · show v.jobsWithPaidHours = specJobsWithHours rows k
      rw [← hget]
      exact sumJobs_eq_spec rows k hp.1
    · show v.paidHours = specPaidHours rows k
      rw [← hget]
      exact sumHours_eq_spec rows k hp.1
    · show v.revenue = specRevenue rows k
      rw [← hget]
      exact sumRev_eq_spec rows k hp.1
  · simp only [renderBestHourly, List.length_take]
    exact min_le_left _ _
  · simp only [renderBestHourly]
    exact List.Pairwise.sublist (List.take_sublist _ _)
      (List.sorted_insertionSort hEntryGE _)

theorem renderBestHourly_demo : renderBestHourly hourlyRows = [aliceEntry] := by
  have hacc : hourlyAccum hourlyRows =
      [("Alice".data, ⟨0 + 1 + 1 + 1 + 1 + 1, 0 + 2 + 2 + 2 + 2 + 2,
        0 + 100 + 100 + 100 + 100 + 100⟩)] := rfl
  rw [renderBestHourly, hacc]
  rw [show List.filter (fun kv => decide (5 ≤ kv.2.jobsWithPaidHours))
      [(("Alice".data : Str), (⟨0 + 1 + 1 + 1 + 1 + 1, 0 + 2 + 2 + 2 + 2 + 2,
        0 + 100 + 100 + 100 + 100 + 100⟩ : HStat))] =
      [(("Alice".data : Str), (⟨0 + 1 + 1 + 1 + 1 + 1, 0 + 2 + 2 + 2 + 2 + 2,
        0 + 100 + 100 + 100 + 100 + 100⟩ : HStat))] from rfl]
  simp only [List.map_cons, List.map_nil, List.insertionSort, List.orderedInsert, List.take]
  simp only [mkHEntry, aliceEntry]
  norm_num

/-- C8 witness: the computed entry for the worked rows is non-denylisted and
meets the 5-job threshold. -/
theorem bestHourly_spec_witness :
    EXCLUDE_HOURLY.contains (normalizeName aliceEntry.employee) = false ∧
    5 ≤ aliceEntry.jobsWithPaidHours :=
  ⟨(bestHourly_spec hourlyRows).1 aliceEntry
      (by rw [renderBestHourly_demo]; exact List.mem_singleton_self _),
   (bestHourly_spec hourlyRows).2.1 aliceEntry
      (by rw [renderBestHourly_demo]; exact List.mem_singleton_self _)⟩
